import Mathlib

set_option maxRecDepth 10000

/-!
# Code 39 barcode engine (`Code39Generator.h`)

A shallow embedding of the class `Code39Generator`: the symbol table
(`PATTERNS`, `CHARS`), `findCharIndex`, `getBarcodeWidth`, `drawBarcode` and
`drawPattern`.

Modelling conventions.

* A C string (`const char*`) is the list of the characters stored in the
  array; the terminating NUL is implicit right after the last list element.
  Reading index `length` yields NUL, reading past it is out of bounds.
* A C `int` is a 32-bit two's-complement integer: its values are the `Int`s
  from `-2147483648` to `2147483647`, and the result of every `int` addition
  and multiplication of the source is reduced by `wrap`, i.e. modulo `2^32`,
  as the target computes it. Loop counters and table indices stay below 44
  and are not reduced. Results are also stated in unbounded arithmetic
  (`widthOf`, `barsOf`, `idealWidth`) under hypotheses `inRange` that rule
  overflow out.
* Every array read is checked: a function returns `none` exactly when it
  would read out of bounds, and `some r` when it completes with result `r`.
* The display is observed through the sequence of `fillRect` calls it
  receives; drawing functions return that sequence in call order.
-/

namespace Code39Generator

/-! ## Data model -/

/-- One call `display->fillRect(x, y, w, h, color)`. -/
structure FillRect where
  x : Int
  y : Int
  w : Int
  h : Int
  color : Nat
deriving DecidableEq, Repr

/-- The table `PATTERNS[44]`: `0` is a thin bar/space, `1` a thick one. -/
def PATTERNS : List (List Char) :=
  [ "000110100".toList, -- 0
    "100100001".toList, -- 1
    "001100001".toList, -- 2
    "101100000".toList, -- 3
    "000110001".toList, -- 4
    "100110000".toList, -- 5
    "001110000".toList, -- 6
    "000100101".toList, -- 7
    "100100100".toList, -- 8
    "001100100".toList, -- 9
    "100001001".toList, -- A
    "001001001".toList, -- B
    "101001000".toList, -- C
    "000011001".toList, -- D
    "100011000".toList, -- E
    "001011000".toList, -- F
    "000001101".toList, -- G
    "100001100".toList, -- H
    "001001100".toList, -- I
    "000011100".toList, -- J
    "100000011".toList, -- K
    "001000011".toList, -- L
    "101000010".toList, -- M
    "000010011".toList, -- N
    "100010010".toList, -- O
    "001010010".toList, -- P
    "000000111".toList, -- Q
    "100000110".toList, -- R
    "001000110".toList, -- S
    "000010110".toList, -- T
    "110000001".toList, -- U
    "011000001".toList, -- V
    "111000000".toList, -- W
    "010010001".toList, -- X
    "110010000".toList, -- Y
    "011010000".toList, -- Z
    "010000101".toList, -- -
    "110000100".toList, -- .
    "011000100".toList, -- SPACE
    "010101000".toList, -- $
    "010100010".toList, -- /
    "010001010".toList, -- +
    "000101010".toList, -- %
    "010010100".toList  -- *
  ]

/-- The string `CHARS`, parallel to `PATTERNS`. -/
def CHARS : List Char := "0123456789ABCDEFGHIJKLMNOPQRSTUVWXYZ-. $/+%*".toList

/-- The terminating character of a C string. -/
def NUL : Char := Char.ofNat 0

/-- The read `s[i]` of a NUL-terminated character array `s`: a stored
character, the terminator right after them, or out of bounds (`none`). -/
def charAt (s : List Char) (i : Nat) : Option Char :=
  if i = s.length then some NUL else s[i]?

/-- The read `PATTERNS[idx]` of the 44-entry table with an `int` index. -/
def patternAt (idx : Int) : Option (List Char) :=
  if 0 ≤ idx then PATTERNS[idx.toNat]? else none

/-- The C library `toupper` in the default "C" locale: `a`..`z` go to
`A`..`Z`, every other character is returned unchanged. -/
def toupper (c : Char) : Char :=
  if 97 ≤ c.toNat ∧ c.toNat ≤ 122 then Char.ofNat (c.toNat - 32) else c

/-- The value a 32-bit two's-complement `int` holds after an operation whose
mathematical result is `n`. -/
def wrap (n : Int) : Int :=
  (n + 2147483648) % 4294967296 - 2147483648

/-! ## findCharIndex -/

/-- The loop of `findCharIndex`: `n` iterations remain, `i` is the loop
variable (`i = 44 - n` in the source). -/
def findCharIndexLoop (c : Char) : Nat → Nat → Option Int
  | 0, _ => some (-1)
  | n + 1, i =>
    match charAt CHARS i with
    | none => none
    | some ch => if ch = c then some (i : Int) else findCharIndexLoop c n (i + 1)

/-- Embedding of `int findCharIndex(char c)`. -/
def findCharIndex (c : Char) : Option Int :=
  findCharIndexLoop c 44 0

/-! ## getBarcodeWidth -/

/-- The loop `for (i = 0; i < 9; i++) total += (p[i] == '0') ? narrowWidth : wideWidth`:
`n` iterations remain, `i` is the loop variable. -/
def addPatternWidth (p : List Char) (narrowWidth wideWidth : Int) : Nat → Nat → Int → Option Int
  | 0, _, total => some total
  | n + 1, i, total =>
    match charAt p i with
    | none => none
    | some ch =>
      addPatternWidth p narrowWidth wideWidth n (i + 1)
        (wrap (total + (if ch = '0' then narrowWidth else wideWidth)))

/-- The content loop of `getBarcodeWidth`, walking `text` up to its terminator. -/
def widthContent (narrowWidth wideWidth : Int) : List Char → Int → Option Int
  | [], total => some total
  | ch :: rest, total =>
    if ch = NUL then some total
    else
      match findCharIndex (toupper ch) with
      | none => none
      | some idx =>
        if idx ≠ -1 then
          match patternAt idx with
          | none => none
          | some p =>
            match addPatternWidth p narrowWidth wideWidth 9 0 total with
            | none => none
            | some total1 => widthContent narrowWidth wideWidth rest (wrap (total1 + narrowWidth))
        else widthContent narrowWidth wideWidth rest total

/-- Embedding of `int getBarcodeWidth(const char* text, int narrowWidth)`. -/
def getBarcodeWidth (text : List Char) (narrowWidth : Int) : Option Int :=
  let wideWidth := wrap (narrowWidth * 3)
  let total := 0
  match patternAt 43 with
  | none => none
  | some startPattern =>
    match addPatternWidth startPattern narrowWidth wideWidth 9 0 total with
    | none => none
    | some total1 =>
      match widthContent narrowWidth wideWidth text (wrap (total1 + narrowWidth)) with
      | none => none
      | some total2 => addPatternWidth startPattern narrowWidth wideWidth 9 0 total2

/-! ## drawPattern and drawBarcode -/

/-- The loop of `drawPattern`: `n` iterations remain, `i` is the loop
variable, `currentX` the local cursor. Returns the `fillRect` calls issued. -/
def drawPatternLoop (pattern : List Char) (y height narrowWidth wideWidth : Int) :
    Nat → Nat → Int → Option (List FillRect)
  | 0, _, _ => some []
  | n + 1, i, currentX =>
    match charAt pattern i with
    | none => none
    | some ch =>
      let width := if ch = '0' then narrowWidth else wideWidth
      match drawPatternLoop pattern y height narrowWidth wideWidth n (i + 1)
          (wrap (currentX + width)) with
      | none => none
      | some rest =>
        if i % 2 = 0 then some (⟨currentX, y, width, height, 0x0000⟩ :: rest) else some rest

/-- Embedding of `void drawPattern(pattern, x, y, height, narrowWidth, wideWidth)`. -/
def drawPattern (pattern : List Char) (x y height narrowWidth wideWidth : Int) :
    Option (List FillRect) :=
  drawPatternLoop pattern y height narrowWidth wideWidth 9 0 x

/-- The content loop of `drawBarcode`: returns the calls issued and the final
value of `currentX`. -/
def drawContent (y height narrowWidth wideWidth : Int) :
    List Char → Int → Option (List FillRect × Int)
  | [], currentX => some ([], currentX)
  | ch :: rest, currentX =>
    if ch = NUL then some ([], currentX)
    else
      match findCharIndex (toupper ch) with
      | none => none
      | some idx =>
        if idx ≠ -1 then
          match patternAt idx with
          | none => none
          | some p =>
            match drawPattern p currentX y height narrowWidth wideWidth with
            | none => none
            | some rects =>
              match drawContent y height narrowWidth wideWidth rest
                  (wrap (currentX +
                    wrap (wrap (wrap (6 * narrowWidth) + wrap (3 * wideWidth)) + narrowWidth))) with
              | none => none
              | some (more, endX) => some (rects ++ more, endX)
        else drawContent y height narrowWidth wideWidth rest currentX

/-- Embedding of `void drawBarcode(const char* text, int x, int y, int height, int narrowWidth)`. -/
def drawBarcode (text : List Char) (x y height narrowWidth : Int) : Option (List FillRect) :=
  let wideWidth := wrap (narrowWidth * 3)
  let currentX := x
  match patternAt 43 with
  | none => none
  | some startPattern =>
    match drawPattern startPattern currentX y height narrowWidth wideWidth with
    | none => none
    | some startRects =>
      match drawContent y height narrowWidth wideWidth text
          (wrap (currentX +
            wrap (wrap (wrap (6 * narrowWidth) + wrap (3 * wideWidth)) + narrowWidth))) with
      | none => none
      | some (contentRects, endX) =>
        match drawPattern startPattern endX y height narrowWidth wideWidth with
        | none => none
        | some stopRects => some (startRects ++ contentRects ++ stopRects)

/-! ## Derived notions used to state and prove the properties -/

/-- Width of one pattern element, the expression `(p[i] == '0') ? narrowWidth : wideWidth`. -/
def elementWidth (narrowWidth wideWidth : Int) (ch : Char) : Int :=
  if ch = '0' then narrowWidth else wideWidth

/-- Sum of the element widths of an element sequence, in unbounded arithmetic. -/
def widthOf (narrowWidth wideWidth : Int) (es : List Char) : Int :=
  (es.map (elementWidth narrowWidth wideWidth)).sum

/-- The rectangles of an element sequence laid out from `cur` in unbounded
arithmetic, the element at position `i` being a bar exactly when `i` is even. -/
def barsOf (y height narrowWidth wideWidth : Int) : Nat → List Char → Int → List FillRect
  | _, [], _ => []
  | i, e :: es, cur =>
    if i % 2 = 0 then
      ⟨cur, y, elementWidth narrowWidth wideWidth e, height, 0⟩ ::
        barsOf y height narrowWidth wideWidth (i + 1) es (cur + elementWidth narrowWidth wideWidth e)
    else barsOf y height narrowWidth wideWidth (i + 1) es (cur + elementWidth narrowWidth wideWidth e)

/-- The cursor or running total after the elements `es`, each addition reduced
to 32 bits as the source's `+=` does. -/
def wadvance (narrowWidth wideWidth : Int) : Int → List Char → Int
  | cur, [] => cur
  | cur, e :: es =>
    wadvance narrowWidth wideWidth (wrap (cur + elementWidth narrowWidth wideWidth e)) es

/-- The rectangles of an element sequence laid out from `cur` with the 32-bit
cursor of the source, the element at position `i` being a bar exactly when `i`
is even. -/
def wbarsOf (y height narrowWidth wideWidth : Int) : Nat → List Char → Int → List FillRect
  | _, [], _ => []
  | i, e :: es, cur =>
    if i % 2 = 0 then
      ⟨cur, y, elementWidth narrowWidth wideWidth e, height, 0⟩ ::
        wbarsOf y height narrowWidth wideWidth (i + 1) es
          (wrap (cur + elementWidth narrowWidth wideWidth e))
    else wbarsOf y height narrowWidth wideWidth (i + 1) es
      (wrap (cur + elementWidth narrowWidth wideWidth e))

/-- Whether the integer is representable as a 32-bit `int`. -/
abbrev inRange (n : Int) : Prop :=
  -2147483648 ≤ n ∧ n ≤ 2147483647

/-- The spec's `lookup(c)` on the table joined by index: the pattern stored at the
index of `c` in `CHARS`, or not-found. -/
def specLookup (c : Char) : Option (List Char) :=
  if c ∈ CHARS then PATTERNS[CHARS.indexOf c]? else none

/-- The start/stop pattern `PATTERNS[43]`. -/
def sentinel : List Char := "010010100".toList

/-- The characters of a C string: those before the first NUL. -/
def cstr (text : List Char) : List Char := text.takeWhile (fun ch => ch ≠ NUL)

/-- Whether the character contributes a symbol: its uppercase form is in `CHARS`. -/
def supported (ch : Char) : Bool := decide (toupper ch ∈ CHARS)

/-- The number `k` of characters of the text whose uppercase form is in `CHARS`. -/
def supportedCount (text : List Char) : Nat :=
  ((cstr text).filter (fun ch => decide (toupper ch ∈ CHARS))).length

/-- The barcode width in unbounded arithmetic, `(31 + 16 * k) * narrowWidth`. -/
def idealWidth (text : List Char) (narrowWidth : Int) : Int :=
  (31 + 16 * (supportedCount text : Int)) * narrowWidth

/-- The element sequence of the content symbols, each followed by one narrow gap. -/
def encodeContent : List Char → List Char
  | [] => []
  | ch :: rest =>
    if ch = NUL then []
    else
      match specLookup (toupper ch) with
      | none => encodeContent rest
      | some p => p ++ '0' :: encodeContent rest

/-- The whole element sequence: start, gap, content symbols with gaps, stop. -/
def encode (text : List Char) : List Char :=
  sentinel ++ '0' :: (encodeContent text ++ sentinel)

/-- The rectangle translated horizontally by `dx`. -/
def shiftRect (dx : Int) (r : FillRect) : FillRect :=
  { r with x := r.x + dx }

/-! ## The reference draw sequencer of the specification -/

/-- The spec's `patternWidth`: `narrowWidth` for each narrow element and
`3 * narrowWidth` for each wide element, summed over the pattern. -/
def specPatternWidth (narrowWidth : Int) (p : List Char) : Int :=
  (p.map (fun e => if e = '0' then narrowWidth else 3 * narrowWidth)).sum

/-- The spec's encoded sequence without its frame: the table patterns of the
characters of the uppercased text that have a table entry, in input order. -/
def specSymbols (text : List Char) : List (List Char) :=
  ((cstr text).map toupper).filterMap specLookup

/-- The spec's sequencer from a cursor: each pattern is drawn at the cursor,
which then advances by `patternWidth(p) + gap`; the stop sentinel comes last. -/
def specRenderFrom (y height narrowWidth : Int) : List (List Char) → Int → Option (List FillRect)
  | [], cursor => drawPattern sentinel cursor y height narrowWidth (narrowWidth * 3)
  | p :: ps, cursor =>
    match drawPattern p cursor y height narrowWidth (narrowWidth * 3),
      specRenderFrom y height narrowWidth ps (cursor + (specPatternWidth narrowWidth p + narrowWidth)) with
    | some rects, some more => some (rects ++ more)
    | _, _ => none

/-- The spec's `render`: start sentinel, content symbols, stop sentinel. -/
def specRender (text : List Char) (x y height narrowWidth : Int) : Option (List FillRect) :=
  specRenderFrom y height narrowWidth (sentinel :: specSymbols text) x

/-- Element sequence of a list of symbols, each followed by one narrow gap. -/
def encodeSymbols : List (List Char) → List Char
  | [] => []
  | p :: ps => p ++ '0' :: encodeSymbols ps

/-! ## A reference Code 39 decoder -/

/-- Apply a fallible function to every element; fail if one application fails. -/
def mapOption {α β : Type} (f : α → Option β) : List α → Option (List β)
  | [] => some []
  | a :: as =>
    match f a, mapOption f as with
    | some b, some bs => some (b :: bs)
    | _, _ => none

/-- Read the rectangles left to right: each rectangle is a bar of its width,
the distance from its right edge to the next left edge is a space. -/
def readElements : List FillRect → List Int
  | [] => []
  | [r] => [r.w]
  | r :: r2 :: rest => r.w :: (r2.x - (r.x + r.w)) :: readElements (r2 :: rest)

/-- Width class of a measured element: narrow `0`, wide `1`, else unreadable. -/
def classify (narrowWidth : Int) (width : Int) : Option Char :=
  if width = narrowWidth then some '0'
  else if width = 3 * narrowWidth then some '1'
  else none

/-- Split an element sequence into 9-element symbols separated by one narrow gap. -/
def splitSymbols : List Char → Option (List (List Char))
  | [e0, e1, e2, e3, e4, e5, e6, e7, e8] => some [[e0, e1, e2, e3, e4, e5, e6, e7, e8]]
  | e0 :: e1 :: e2 :: e3 :: e4 :: e5 :: e6 :: e7 :: e8 :: gap :: rest =>
    if gap = '0' then
      match splitSymbols rest with
      | some syms => some ([e0, e1, e2, e3, e4, e5, e6, e7, e8] :: syms)
      | none => none
    else none
  | _ => none

/-- Map a symbol back through the table: the character at the pattern's index. -/
def decodeSymbol (sym : List Char) : Option Char :=
  if sym ∈ PATTERNS then CHARS[PATTERNS.indexOf sym]? else none

/-- The decoder: measure, classify, split, look up. -/
def decode (narrowWidth : Int) (rects : List FillRect) : Option (List Char) :=
  match mapOption (classify narrowWidth) (readElements rects) with
  | none => none
  | some es =>
    match splitSymbols es with
    | none => none
    | some syms => mapOption decodeSymbol syms

/-! ## Basic facts -/

theorem toNat_ofNat_small (n : Nat) (h : n < 55296) : (Char.ofNat n).toNat = n := by
  have hv : n.isValidChar := Or.inl h
  simp [Char.ofNat, hv, Char.ofNatAux, Char.toNat]
  rfl

theorem toNat_toupper (c : Char) :
    (toupper c).toNat = if 97 ≤ c.toNat ∧ c.toNat ≤ 122 then c.toNat - 32 else c.toNat := by
  unfold toupper
  split
  · rename_i h
    exact toNat_ofNat_small _ (by omega)
  · rfl

theorem char_eq_of_toNat_eq {a b : Char} (h : a.toNat = b.toNat) : a = b := by
  rw [← Char.ofNat_toNat a, ← Char.ofNat_toNat b, h]

theorem toupper_toupper (c : Char) : toupper (toupper c) = toupper c := by
  apply char_eq_of_toNat_eq
  rw [toNat_toupper (toupper c), toNat_toupper c]
  split_ifs <;> omega

theorem NUL_toNat : NUL.toNat = 0 := by decide

theorem toupper_eq_NUL (c : Char) : toupper c = NUL ↔ c = NUL := by
  constructor
  · intro h
    apply char_eq_of_toNat_eq
    have := congrArg Char.toNat h
    rw [toNat_toupper, NUL_toNat] at this
    rw [NUL_toNat]
    split_ifs at this <;> omega
  · rintro rfl
    decide

theorem charAt_of_lt (s : List Char) (i : Nat) (h : i < s.length) : charAt s i = some s[i] := by
  unfold charAt
  rw [if_neg (by omega), List.getElem?_eq_getElem h]

theorem patternAt_sentinel : patternAt 43 = some sentinel := by decide

theorem CHARS_length : CHARS.length = 44 := by decide

theorem PATTERNS_shape :
    ∀ p ∈ PATTERNS, p.length = 9 ∧ p.count '0' = 6 ∧ p.count '1' = 3 := by decide

theorem sentinel_mem : sentinel ∈ PATTERNS := by decide

/-! ## findCharIndex against the table lookup -/

theorem findCharIndexLoop_miss (c : Char) (h : c ∉ CHARS) :
    ∀ n i, i + n ≤ CHARS.length → findCharIndexLoop c n i = some (-1) := by
  intro n
  induction n with
  | zero => intro i _; rfl
  | succ n ih =>
    intro i hi
    have hlt : i < CHARS.length := by omega
    have hne : CHARS[i] ≠ c := fun e => h (e ▸ List.getElem_mem hlt)
    rw [findCharIndexLoop, charAt_of_lt _ _ hlt]
    simp only [hne, if_false]
    exact ih (i + 1) (by omega)

theorem findCharIndex_mem :
    ∀ c ∈ CHARS, findCharIndex c = some (CHARS.indexOf c : Int) ∧
      patternAt (CHARS.indexOf c : Int) = specLookup c ∧ (specLookup c).isSome = true ∧
      CHARS.indexOf c ≤ 43 := by decide

/-- The table row the code selects for `c`: either `c` has no entry and
`findCharIndex` answers `-1`, or it answers the index of the looked-up pattern. -/
theorem findCharIndex_lookup (c : Char) :
    (specLookup c = none ∧ c ∉ CHARS ∧ findCharIndex c = some (-1)) ∨
    (∃ p idx, specLookup c = some p ∧ c ∈ CHARS ∧ findCharIndex c = some idx ∧ idx ≠ -1 ∧
      patternAt idx = some p ∧ p ∈ PATTERNS ∧ 0 ≤ idx ∧ idx ≤ 43) := by
  by_cases h : c ∈ CHARS
  · right
    obtain ⟨h1, h2, h3, h4⟩ := findCharIndex_mem c h
    obtain ⟨p, hp⟩ := Option.isSome_iff_exists.mp h3
    refine ⟨p, _, hp, h, h1, by omega, h2.trans hp, ?_, by omega, by omega⟩
    have : PATTERNS[CHARS.indexOf c]? = some p := by
      rw [← hp, specLookup, if_pos h]
    exact List.mem_iff_getElem?.mpr ⟨_, this⟩
  · left
    exact ⟨by rw [specLookup, if_neg h], h, findCharIndexLoop_miss c h 44 0 (by decide)⟩

/-! ## Widths and layout of element sequences in unbounded arithmetic -/

theorem take_drop_succ (p : List Char) (n i : Nat) (h : i < p.length) :
    (p.drop i).take (n + 1) = p[i] :: (p.drop (i + 1)).take n := by
  rw [List.drop_eq_getElem_cons h, List.take_succ_cons]

theorem widthOf_append (nw ww : Int) (a b : List Char) :
    widthOf nw ww (a ++ b) = widthOf nw ww a + widthOf nw ww b := by
  simp [widthOf]

theorem widthOf_cons (nw ww : Int) (e : Char) (es : List Char) :
    widthOf nw ww (e :: es) = elementWidth nw ww e + widthOf nw ww es := by
  simp [widthOf]

theorem widthOf_count (nw ww : Int) (p : List Char) :
    widthOf nw ww p = (p.count '0' : Int) * nw + ((p.length : Int) - p.count '0') * ww := by
  induction p with
  | nil => simp [widthOf]
  | cons e es ih =>
    rw [widthOf_cons, ih, elementWidth]
    by_cases he : e = '0'
    · subst he
      simp only [if_true, List.count_cons_self, List.length_cons]
      push_cast
      ring
    · have hne : ¬ (e == '0') = true := by simpa using he
      simp only [he, if_false, List.count_cons, List.length_cons, hne]
      push_cast
      ring

theorem widthOf_pattern (nw ww : Int) (p : List Char) (hp : p ∈ PATTERNS) :
    widthOf nw ww p = 6 * nw + 3 * ww := by
  obtain ⟨h1, h2, _⟩ := PATTERNS_shape p hp
  rw [widthOf_count, h1, h2]
  norm_num

theorem barsOf_parity (y h nw ww : Int) (es : List Char) :
    ∀ i j cur, i % 2 = j % 2 → barsOf y h nw ww i es cur = barsOf y h nw ww j es cur := by
  induction es with
  | nil => intro i j cur _; simp [barsOf]
  | cons e es ih =>
    intro i j cur hij
    rw [barsOf, barsOf, hij, ih (i + 1) (j + 1) _ (by omega)]

theorem barsOf_append (y h nw ww : Int) (a b : List Char) :
    ∀ i cur, barsOf y h nw ww i (a ++ b) cur =
      barsOf y h nw ww i a cur ++ barsOf y h nw ww (i + a.length) b (cur + widthOf nw ww a) := by
  induction a with
  | nil => intro i cur; simp [barsOf, widthOf]
  | cons e es ih =>
    intro i cur
    rw [List.cons_append, barsOf, barsOf, ih, widthOf_cons, List.length_cons]
    have e1 : i + 1 + es.length = i + (es.length + 1) := by omega
    rw [e1, add_assoc]
    split_ifs <;> simp

theorem elementWidth_zero (nw ww : Int) : elementWidth nw ww '0' = nw := by
  simp [elementWidth]

theorem barsOf_symbol (y h nw ww : Int) (p rest : List Char) (cur : Int) (h9 : p.length = 9) :
    barsOf y h nw ww 0 (p ++ '0' :: rest) cur =
      barsOf y h nw ww 0 p cur ++ barsOf y h nw ww 0 rest (cur + (widthOf nw ww p + nw)) := by
  rw [barsOf_append, h9, barsOf]
  simp only [Nat.zero_add, Nat.reduceMod, OfNat.ofNat_ne_zero, if_false, elementWidth_zero]
  rw [barsOf_parity y h nw ww rest 10 0 _ rfl, add_assoc]
  simp

theorem encodeContent_length_even (text : List Char) : (encodeContent text).length % 2 = 0 % 2 := by
  induction text with
  | nil => rfl
  | cons ch rest ih =>
    rw [encodeContent]
    by_cases hn : ch = NUL
    · simp [hn]
    · rw [if_neg hn]
      rcases findCharIndex_lookup (toupper ch) with ⟨h1, _, _⟩ | ⟨p, idx, h1, _, _, _, _, h6, _⟩
      · rw [h1]; exact ih
      · rw [h1]
        have h9 := (PATTERNS_shape p h6).1
        simp only [List.length_append, List.length_cons, h9]
        omega

/-! ## Horizontal extent of a laid-out element sequence -/

theorem elementWidth_nonneg (nw ww : Int) (h1 : 0 ≤ nw) (h2 : 0 ≤ ww) (e : Char) :
    0 ≤ elementWidth nw ww e := by
  unfold elementWidth; split <;> assumption

theorem widthOf_nonneg (nw ww : Int) (h1 : 0 ≤ nw) (h2 : 0 ≤ ww) (es : List Char) :
    0 ≤ widthOf nw ww es := by
  induction es with
  | nil => simp [widthOf]
  | cons e es ih =>
    rw [widthOf_cons]
    have := elementWidth_nonneg nw ww h1 h2 e
    omega

theorem barsOf_within (y h nw ww : Int) (h1 : 0 ≤ nw) (h2 : 0 ≤ ww) (es : List Char) :
    ∀ i cur, ∀ r ∈ barsOf y h nw ww i es cur,
      cur ≤ r.x ∧ r.x + r.w ≤ cur + widthOf nw ww es := by
  induction es with
  | nil => intro i cur r hr; simp [barsOf] at hr
  | cons e es ih =>
    intro i cur r hr
    have he := elementWidth_nonneg nw ww h1 h2 e
    have hes := widthOf_nonneg nw ww h1 h2 es
    rw [widthOf_cons]
    rw [barsOf] at hr
    split_ifs at hr
    · rcases List.mem_cons.mp hr with rfl | hr
      · simp only
        omega
      · have := ih _ _ r hr
        omega
    · have := ih _ _ r hr
      omega

theorem barsOf_first (y h nw ww : Int) (e : Char) (es : List Char) (cur : Int) :
    ⟨cur, y, elementWidth nw ww e, h, 0⟩ ∈ barsOf y h nw ww 0 (e :: es) cur := by
  simp [barsOf]

theorem barsOf_last (y h nw ww : Int) (e : Char) (es : List Char) (cur : Int)
    (hlen : es.length % 2 = 0) :
    ⟨cur + widthOf nw ww es, y, elementWidth nw ww e, h, 0⟩ ∈
      barsOf y h nw ww 0 (es ++ [e]) cur := by
  rw [barsOf_append, barsOf]
  simp [hlen]

theorem encode_first (text : List Char) :
    encode text = '0' :: ("10010100".toList ++ '0' :: (encodeContent text ++ sentinel)) := by
  simp [encode, sentinel]

theorem encode_last (text : List Char) :
    encode text = (sentinel ++ '0' :: (encodeContent text ++ "01001010".toList)) ++ ['0'] := by
  simp [encode, sentinel]

theorem encode_init_even (text : List Char) :
    (sentinel ++ '0' :: (encodeContent text ++ "01001010".toList)).length % 2 = 0 := by
  have := encodeContent_length_even text
  simp only [List.length_append, List.length_cons, sentinel, String.toList]
  simp only [List.length_cons, List.length_nil]
  omega

theorem widthOf_neg (nw ww : Int) (es : List Char) :
    widthOf (-nw) (-ww) es = -widthOf nw ww es := by
  induction es with
  | nil => simp [widthOf]
  | cons e es ih =>
    rw [widthOf_cons, widthOf_cons, ih, elementWidth, elementWidth]
    split <;> ring

/-! ## The encoded sequence in terms of the spec's symbols -/

theorem cstr_cons (ch : Char) (rest : List Char) :
    cstr (ch :: rest) = if ch = NUL then [] else ch :: cstr rest := by
  unfold cstr
  rw [List.takeWhile_cons]
  by_cases h : ch = NUL <;> simp [h]

theorem encodeContent_symbols (text : List Char) :
    encodeContent text = encodeSymbols (specSymbols text) := by
  induction text with
  | nil => rfl
  | cons ch rest ih =>
    rw [encodeContent, specSymbols, cstr_cons]
    by_cases hn : ch = NUL
    · simp [hn, encodeSymbols]
    · rw [if_neg hn, if_neg hn, List.map_cons, List.filterMap_cons]
      cases hl : specLookup (toupper ch) with
      | none => simpa [specSymbols] using ih
      | some p =>
        simp only [encodeSymbols]
        rw [ih, specSymbols]

theorem specLookup_mem (c : Char) (p : List Char) (h : specLookup c = some p) : p ∈ PATTERNS := by
  rcases findCharIndex_lookup c with ⟨h1, _⟩ | ⟨q, idx, h1, _, _, _, _, h6, _⟩
  · rw [h1] at h; cases h
  · rw [h1] at h; cases h; exact h6

theorem specSymbols_mem (text : List Char) : ∀ p ∈ specSymbols text, p ∈ PATTERNS := by
  intro p hp
  rw [specSymbols, List.mem_filterMap] at hp
  obtain ⟨c, _, hc⟩ := hp
  exact specLookup_mem c p hc

theorem specPatternWidth_eq (nw : Int) (p : List Char) :
    specPatternWidth nw p = widthOf nw (nw * 3) p := by
  unfold specPatternWidth widthOf elementWidth
  congr 2
  funext e
  split <;> ring

/-! ## Width of the content in units of sixteen narrow widths -/

theorem widthOf_encodeContent (nw : Int) (text : List Char) :
    widthOf nw (nw * 3) (encodeContent text) =
      16 * (((cstr text).filter supported).length : Int) * nw := by
  induction text with
  | nil => simp [encodeContent, widthOf, cstr]
  | cons ch rest ih =>
    rw [encodeContent, cstr_cons]
    by_cases hn : ch = NUL
    · simp [hn, widthOf]
    · rw [if_neg hn, if_neg hn, List.filter_cons]
      rcases findCharIndex_lookup (toupper ch) with ⟨h1, h2, _⟩ | ⟨p, idx, h1, h2, _, _, _, h6, _⟩
      · have hs : supported ch = false := by simp [supported, h2]
        rw [h1, hs]
        simpa using ih
      · have hs : supported ch = true := by simp [supported, h2]
        rw [h1, hs]
        simp only [if_true, List.length_cons]
        rw [widthOf_append, widthOf_cons, elementWidth_zero, ih, widthOf_pattern nw _ p h6]
        push_cast
        ring

theorem encodeContent_toupper (text : List Char) :
    encodeContent (text.map toupper) = encodeContent text := by
  induction text with
  | nil => rfl
  | cons ch rest ih =>
    rw [List.map_cons, encodeContent, encodeContent, toupper_toupper, ih]
    by_cases hn : ch = NUL
    · rw [if_pos hn, if_pos ((toupper_eq_NUL ch).mpr hn)]
    · rw [if_neg hn, if_neg (fun h => hn ((toupper_eq_NUL ch).mp h))]

theorem encodeContent_skip (a b : List Char) (c : Char) (h0 : c ≠ NUL)
    (hc : toupper c ∉ CHARS) : encodeContent (a ++ c :: b) = encodeContent (a ++ b) := by
  induction a with
  | nil =>
    rw [List.nil_append, List.nil_append, encodeContent, if_neg h0]
    have : specLookup (toupper c) = none := by rw [specLookup, if_neg hc]
    rw [this]
  | cons ch rest ih =>
    rw [List.cons_append, List.cons_append, encodeContent, encodeContent, ih]

/-! ## Decoding a laid-out element sequence -/

theorem PATTERNS_binary : ∀ p ∈ PATTERNS, ∀ e ∈ p, e = '0' ∨ e = '1' := by decide

theorem decodeSymbol_lookup : ∀ c ∈ CHARS, (specLookup c).bind decodeSymbol = some c := by decide

theorem barsOf_two (y h nw ww : Int) (b s : Char) (rest : List Char) (cur : Int) :
    barsOf y h nw ww 0 (b :: s :: rest) cur =
      ⟨cur, y, elementWidth nw ww b, h, 0⟩ ::
        barsOf y h nw ww 0 rest (cur + elementWidth nw ww b + elementWidth nw ww s) := by
  rw [barsOf, barsOf]
  simp only [Nat.zero_mod, if_true, Nat.zero_add, Nat.one_mod, one_ne_zero, if_false]
  rw [barsOf_parity y h nw ww rest (1 + 1) 0 _ rfl]

theorem readElements_barsOf (y h nw ww : Int) :
    ∀ n (es : List Char) (cur : Int), es.length = 2 * n + 1 →
      readElements (barsOf y h nw ww 0 es cur) = es.map (elementWidth nw ww) := by
  intro n
  induction n with
  | zero =>
    intro es cur hlen
    match es, hlen with
    | [b], _ => simp [barsOf, readElements]
  | succ n ih =>
    intro es cur hlen
    match es, hlen with
    | b :: s :: b2 :: rest, hlen =>
      have hlen2 : (b2 :: rest).length = 2 * n + 1 := by
        simp only [List.length_cons] at hlen ⊢
        omega
      have hih := ih (b2 :: rest) (cur + elementWidth nw ww b + elementWidth nw ww s) hlen2
      rw [barsOf_two]
      rw [barsOf] at hih ⊢
      simp only [Nat.zero_mod, if_true] at hih ⊢
      rw [readElements, hih]
      simp only [List.map_cons]
      congr 2
      ring

theorem classify_elementWidth (nw : Int) (hnw : nw ≠ 0) (e : Char) (he : e = '0' ∨ e = '1') :
    classify nw (elementWidth nw (nw * 3) e) = some e := by
  rcases he with rfl | rfl
  · simp [classify, elementWidth]
  · have h2 : nw * 3 = 3 * nw := by ring
    have h3 : ¬ ('1' = '0') := by decide
    have h4 : ¬ (3 * nw = nw) := by omega
    simp [classify, elementWidth, h2, h3, h4]

theorem mapOption_classify (nw : Int) (hnw : nw ≠ 0) (es : List Char)
    (hes : ∀ e ∈ es, e = '0' ∨ e = '1') :
    mapOption (classify nw) (es.map (elementWidth nw (nw * 3))) = some es := by
  induction es with
  | nil => rfl
  | cons e es ih =>
    rw [List.map_cons, mapOption, classify_elementWidth nw hnw e (hes e (List.mem_cons_self _ _)),
      ih (fun a ha => hes a (List.mem_cons_of_mem _ ha))]

theorem mapOption_append {α β : Type} (f : α → Option β) (a b : List α) (a2 b2 : List β)
    (ha : mapOption f a = some a2) (hb : mapOption f b = some b2) :
    mapOption f (a ++ b) = some (a2 ++ b2) := by
  induction a generalizing a2 with
  | nil =>
    simp only [mapOption, Option.some.injEq] at ha
    subst ha
    simpa using hb
  | cons x xs ih =>
    rw [mapOption] at ha
    rw [List.cons_append, mapOption]
    cases hx : f x with
    | none => simp [hx] at ha
    | some x2 =>
      cases hxs : mapOption f xs with
      | none => simp [hx, hxs] at ha
      | some xs2 =>
        simp only [hx, hxs, Option.some.injEq] at ha
        subst ha
        rw [ih xs2 hxs]
        rfl

theorem splitSymbols_single (q : List Char) (hq : q.length = 9) :
    splitSymbols q = some [q] := by
  match q, hq with
  | [e0, e1, e2, e3, e4, e5, e6, e7, e8], _ => rfl

theorem splitSymbols_cons (p rest : List Char) (hp : p.length = 9) :
    splitSymbols (p ++ '0' :: rest) =
      match splitSymbols rest with
      | some syms => some (p :: syms)
      | none => none := by
  match p, hp with
  | [e0, e1, e2, e3, e4, e5, e6, e7, e8], _ =>
    simp only [List.cons_append, List.nil_append]
    rw [splitSymbols]
    simp

theorem splitSymbols_encodeSymbols (q : List Char) (hq : q.length = 9) :
    ∀ ps : List (List Char), (∀ p ∈ ps, p.length = 9) →
      splitSymbols (encodeSymbols ps ++ q) = some (ps ++ [q]) := by
  intro ps
  induction ps with
  | nil => intro _; exact splitSymbols_single q hq
  | cons p ps ih =>
    intro hps
    rw [encodeSymbols, List.append_assoc, List.cons_append,
      splitSymbols_cons p _ (hps p (List.mem_cons_self _ _)),
      ih (fun a ha => hps a (List.mem_cons_of_mem _ ha))]
    rfl

theorem mapOption_decodeSymbol (l : List Char) :
    mapOption decodeSymbol (l.filterMap specLookup) =
      some (l.filter (fun c => decide (c ∈ CHARS))) := by
  induction l with
  | nil => rfl
  | cons c l ih =>
    rw [List.filterMap_cons, List.filter_cons]
    by_cases hc : c ∈ CHARS
    · have hd := decodeSymbol_lookup c hc
      cases hl : specLookup c with
      | none => rw [hl] at hd; cases hd
      | some p =>
        rw [hl] at hd
        simp only [Option.some_bind] at hd
        simp only [hc, decide_True, if_true]
        rw [mapOption, hd, ih]
    · have hl : specLookup c = none := by rw [specLookup, if_neg hc]
      rw [hl]
      simp only [hc, decide_False]
      exact ih

theorem encodeSymbols_binary :
    ∀ ps : List (List Char), (∀ p ∈ ps, p ∈ PATTERNS) →
      ∀ e ∈ encodeSymbols ps, e = '0' ∨ e = '1' := by
  intro ps
  induction ps with
  | nil => intro _ e he; simp [encodeSymbols] at he
  | cons p ps ih =>
    intro hps e he
    rw [encodeSymbols, List.mem_append, List.mem_cons] at he
    rcases he with he | rfl | he
    · exact PATTERNS_binary p (hps p (List.mem_cons_self _ _)) e he
    · exact Or.inl rfl
    · exact ih (fun a ha => hps a (List.mem_cons_of_mem _ ha)) e he

theorem encode_symbols (text : List Char) :
    encode text = encodeSymbols (sentinel :: specSymbols text) ++ sentinel := by
  simp only [encode, encodeSymbols, encodeContent_symbols, List.cons_append, List.append_assoc]

theorem frame_mem (text : List Char) : ∀ p ∈ sentinel :: specSymbols text, p ∈ PATTERNS := by
  intro p hp
  rcases List.mem_cons.mp hp with rfl | hp
  · exact sentinel_mem
  · exact specSymbols_mem text p hp

/-- Decoding the rectangles of the encoded sequence gives back the framed,
uppercased, filtered text. -/
theorem decode_barsOf_encode (text : List Char) (x y h nw : Int) (hnw : nw ≠ 0) :
    decode nw (barsOf y h nw (nw * 3) 0 (encode text) x) =
      some ('*' :: (((cstr text).map toupper).filter (fun c => decide (c ∈ CHARS)) ++ ['*'])) := by
  have hodd : ∃ n, (encode text).length = 2 * n + 1 := by
    have := encode_init_even text
    rw [encode_last, List.length_append]
    exact ⟨(sentinel ++ '0' :: (encodeContent text ++ "01001010".toList)).length / 2, by
      simp only [List.length_cons, List.length_nil]; omega⟩
  obtain ⟨n, hn⟩ := hodd
  have hbin : ∀ e ∈ encode text, e = '0' ∨ e = '1' := by
    intro e he
    rw [encode_symbols, List.mem_append] at he
    rcases he with he | he
    · exact encodeSymbols_binary _ (frame_mem text) e he
    · exact PATTERNS_binary sentinel sentinel_mem e he
  have hsplit : splitSymbols (encode text) = some ((sentinel :: specSymbols text) ++ [sentinel]) := by
    rw [encode_symbols]
    exact splitSymbols_encodeSymbols sentinel (by decide) _
      (fun p hp => (PATTERNS_shape p (frame_mem text p hp)).1)
  have hdec : mapOption decodeSymbol ((sentinel :: specSymbols text) ++ [sentinel]) =
      some (('*' :: ((cstr text).map toupper).filter (fun c => decide (c ∈ CHARS))) ++ ['*']) := by
    apply mapOption_append
    · rw [mapOption, specSymbols, mapOption_decodeSymbol]
      rfl
    · rfl
  rw [decode, readElements_barsOf y h nw (nw * 3) n _ x hn, mapOption_classify nw hnw _ hbin]
  simp only [hsplit]
  rw [hdec]
  rfl

/-! ## The sentinel inside the content -/

theorem barsOf_shift (y h nw ww : Int) (es : List Char) (d : Int) :
    ∀ i cur, barsOf y h nw ww i es (cur + d) = (barsOf y h nw ww i es cur).map (shiftRect d) := by
  induction es with
  | nil => intro i cur; simp [barsOf]
  | cons e es ih =>
    intro i cur
    rw [barsOf, barsOf]
    have hc : cur + d + elementWidth nw ww e = cur + elementWidth nw ww e + d := by ring
    rw [hc, ih]
    split_ifs
    · simp [shiftRect]
    · rfl

theorem cstr_of_no_NUL (text : List Char) (h : NUL ∉ text) : cstr text = text := by
  induction text with
  | nil => rfl
  | cons ch rest ih =>
    have hch : ch ≠ NUL := fun e => h (e ▸ List.mem_cons_self _ _)
    rw [cstr_cons, if_neg hch, ih (fun hm => h (List.mem_cons_of_mem _ hm))]

theorem encodeContent_append (a b : List Char) (h : NUL ∉ a) :
    encodeContent (a ++ b) = encodeContent a ++ encodeContent b := by
  induction a with
  | nil => simp [encodeContent]
  | cons ch rest ih =>
    have hch : ch ≠ NUL := fun e => h (e ▸ List.mem_cons_self _ _)
    rw [List.cons_append, encodeContent, encodeContent, if_neg hch, if_neg hch,
      ih (fun hm => h (List.mem_cons_of_mem _ hm))]
    cases specLookup (toupper ch) with
    | none => rfl
    | some p => simp

theorem specLookup_star : specLookup (toupper '*') = some sentinel := by decide

theorem encodeContent_star (rest : List Char) :
    encodeContent ('*' :: rest) = sentinel ++ '0' :: encodeContent rest := by
  rw [encodeContent, if_neg (by decide), specLookup_star]

theorem barsOf_nine_length (y h nw ww : Int) (p : List Char) (cur : Int) (h9 : p.length = 9) :
    (barsOf y h nw ww 0 p cur).length = 5 := by
  match p, h9 with
  | [e0, e1, e2, e3, e4, e5, e6, e7, e8], _ => simp [barsOf]

theorem barsOf_encodeContent_length (y h nw ww : Int) (text : List Char) :
    ∀ cur, (barsOf y h nw ww 0 (encodeContent text) cur).length =
      5 * ((cstr text).filter supported).length := by
  induction text with
  | nil => intro cur; simp [encodeContent, barsOf, cstr]
  | cons ch rest ih =>
    intro cur
    rw [encodeContent, cstr_cons]
    by_cases hn : ch = NUL
    · simp [hn, barsOf]
    · rw [if_neg hn, if_neg hn, List.filter_cons]
      rcases findCharIndex_lookup (toupper ch) with ⟨h1, h2, _⟩ | ⟨p, idx, h1, h2, _, _, _, h6, _⟩
      · have hs : supported ch = false := by simp [supported, h2]
        rw [h1, hs]
        simpa using ih cur
      · have hs : supported ch = true := by simp [supported, h2]
        have h9 := (PATTERNS_shape p h6).1
        rw [h1, hs]
        simp only [if_true, List.length_cons]
        rw [barsOf_symbol y h nw ww p _ cur h9, List.length_append,
          barsOf_nine_length y h nw ww p cur h9, ih]
        ring

theorem elementWidth_three (nw : Int) (e : Char) :
    elementWidth nw (nw * 3) e = if e = '0' then nw else 3 * nw := by
  unfold elementWidth
  split
  · rfl
  · ring

/-! ## 32-bit arithmetic -/

theorem wrap_of_inRange (n : Int) (h : inRange n) : wrap n = n := by
  obtain ⟨h1, h2⟩ := h
  unfold wrap
  omega

theorem wrap_inRange (n : Int) : inRange (wrap n) := by
  unfold wrap
  constructor <;> omega

theorem wrap_wrap (n : Int) : wrap (wrap n) = wrap n := by
  unfold wrap
  omega

theorem wrap_add_left (a b : Int) : wrap (wrap a + b) = wrap (a + b) := by
  unfold wrap
  omega

theorem wrap_add_right (a b : Int) : wrap (a + wrap b) = wrap (a + b) := by
  unfold wrap
  omega

theorem wrap_advance (cur nw ww : Int) :
    wrap (cur + wrap (wrap (wrap (6 * nw) + wrap (3 * ww)) + nw)) =
      wrap (cur + (6 * nw + 3 * ww + nw)) := by
  unfold wrap
  omega

theorem wrap_three (c nw : Int) : wrap (c + wrap (nw * 3)) = wrap (c + nw * 3) :=
  wrap_add_right c (nw * 3)

/-! ## The 32-bit cursor over an element sequence -/

theorem wadvance_append (nw ww : Int) (a b : List Char) :
    ∀ cur, wadvance nw ww cur (a ++ b) = wadvance nw ww (wadvance nw ww cur a) b := by
  induction a with
  | nil => intro cur; rfl
  | cons e es ih => intro cur; rw [List.cons_append, wadvance, wadvance, ih]

theorem wadvance_wrap (nw ww : Int) (es : List Char) :
    ∀ cur, wrap (wadvance nw ww cur es) = wrap (cur + widthOf nw ww es) := by
  induction es with
  | nil => intro cur; simp [wadvance, widthOf]
  | cons e es ih =>
    intro cur
    rw [wadvance, ih, wrap_add_left, widthOf_cons, add_assoc]

theorem wadvance_fixed (nw ww : Int) (es : List Char) :
    ∀ cur, wrap cur = cur → wrap (wadvance nw ww cur es) = wadvance nw ww cur es := by
  induction es with
  | nil => intro cur h; exact h
  | cons e es ih => intro cur _; rw [wadvance]; exact ih _ (wrap_wrap _)

theorem wadvance_cons (nw ww : Int) (e : Char) (es : List Char) (cur : Int) :
    wadvance nw ww cur (e :: es) = wrap (cur + widthOf nw ww (e :: es)) := by
  rw [← wadvance_wrap, wadvance, wadvance_fixed nw ww es _ (wrap_wrap _)]

theorem wadvance_of_wrapped (nw ww : Int) (es : List Char) (cur : Int) (h : wrap cur = cur) :
    wadvance nw ww cur es = wrap (cur + widthOf nw ww es) := by
  rw [← wadvance_wrap, wadvance_fixed nw ww es cur h]

theorem wrap_widthOf_wide (nw : Int) (es : List Char) :
    ∀ c, wrap (c + widthOf nw (wrap (nw * 3)) es) = wrap (c + widthOf nw (nw * 3) es) := by
  induction es with
  | nil => intro c; simp [widthOf]
  | cons e es ih =>
    intro c
    rw [widthOf_cons, widthOf_cons, ← add_assoc, ← add_assoc, ih]
    unfold elementWidth
    split
    · rfl
    · generalize widthOf nw (nw * 3) es = rest
      unfold wrap
      omega

theorem wbarsOf_parity (y h nw ww : Int) (es : List Char) :
    ∀ i j cur, i % 2 = j % 2 → wbarsOf y h nw ww i es cur = wbarsOf y h nw ww j es cur := by
  induction es with
  | nil => intro i j cur _; simp [wbarsOf]
  | cons e es ih =>
    intro i j cur hij
    rw [wbarsOf, wbarsOf, hij, ih (i + 1) (j + 1) _ (by omega)]

theorem wbarsOf_append (y h nw ww : Int) (a b : List Char) :
    ∀ i cur, wbarsOf y h nw ww i (a ++ b) cur =
      wbarsOf y h nw ww i a cur ++ wbarsOf y h nw ww (i + a.length) b (wadvance nw ww cur a) := by
  induction a with
  | nil => intro i cur; simp [wbarsOf, wadvance]
  | cons e es ih =>
    intro i cur
    rw [List.cons_append, wbarsOf, wbarsOf, ih, wadvance, List.length_cons]
    have e1 : i + 1 + es.length = i + (es.length + 1) := by omega
    rw [e1]
    split_ifs <;> simp

theorem wbarsOf_symbol (y h nw ww : Int) (p rest : List Char) (cur : Int) (h9 : p.length = 9) :
    wbarsOf y h nw ww 0 (p ++ '0' :: rest) cur =
      wbarsOf y h nw ww 0 p cur ++
        wbarsOf y h nw ww 0 rest (wadvance nw ww cur (p ++ ['0'])) := by
  have happ : p ++ '0' :: rest = (p ++ ['0']) ++ rest := by simp
  rw [happ, wbarsOf_append, wbarsOf_append]
  have hgap : wbarsOf y h nw ww (0 + p.length) ['0'] (wadvance nw ww cur p) = [] := by
    rw [h9]; simp [wbarsOf]
  rw [hgap, List.append_nil]
  congr 1
  apply wbarsOf_parity
  simp [h9]

theorem wadvance_symbol (nw ww cur : Int) (p : List Char) (hp : p ∈ PATTERNS) :
    wadvance nw ww cur (p ++ ['0']) =
      wrap (cur + wrap (wrap (wrap (6 * nw) + wrap (3 * ww)) + nw)) := by
  have h9 := (PATTERNS_shape p hp).1
  match p, h9, hp with
  | e :: es, _, hp =>
    rw [List.cons_append, wadvance_cons, ← List.cons_append, widthOf_append, widthOf_pattern nw ww _ hp,
      widthOf_cons, elementWidth_zero, wrap_advance]
    simp [widthOf]

/-- All partial sums of a sign-uniform element sequence lie between its ends. -/
theorem inRange_initial (nw ww : Int) (hs : (0 ≤ nw ∧ 0 ≤ ww) ∨ (nw ≤ 0 ∧ ww ≤ 0))
    (a b : List Char) (cur : Int) (hc : inRange cur)
    (he : inRange (cur + widthOf nw ww (a ++ b))) : inRange (cur + widthOf nw ww a) := by
  rw [widthOf_append] at he
  obtain ⟨h1, h2⟩ := hc
  obtain ⟨h3, h4⟩ := he
  rcases hs with ⟨hn, hw⟩ | ⟨hn, hw⟩
  · have ha := widthOf_nonneg nw ww hn hw a
    have hb := widthOf_nonneg nw ww hn hw b
    constructor <;> omega
  · have ha := widthOf_nonneg (-nw) (-ww) (by omega) (by omega) a
    have hb := widthOf_nonneg (-nw) (-ww) (by omega) (by omega) b
    rw [widthOf_neg] at ha hb
    constructor <;> omega

theorem inRange_take (nw ww : Int) (hs : (0 ≤ nw ∧ 0 ≤ ww) ∨ (nw ≤ 0 ∧ ww ≤ 0))
    (es : List Char) (cur : Int) (hc : inRange cur) (he : inRange (cur + widthOf nw ww es)) :
    ∀ j, j < es.length → inRange (cur + widthOf nw ww (es.take j)) := by
  intro j _
  apply inRange_initial nw ww hs (es.take j) (es.drop j) cur hc
  rw [List.take_append_drop]
  exact he

/-- The 32-bit layout is the unbounded one when the cursor value in front of every
element is representable. -/
theorem wbarsOf_eq_barsOf (y h nw ww : Int) (es : List Char) :
    ∀ i cur, (∀ j, j < es.length → inRange (cur + widthOf nw ww (es.take j))) →
      wbarsOf y h nw ww i es cur = barsOf y h nw ww i es cur := by
  induction es with
  | nil => intro i cur _; simp [wbarsOf, barsOf]
  | cons e es ih =>
    intro i cur hall
    cases es with
    | nil => simp [wbarsOf, barsOf]
    | cons e2 es2 =>
      have h1 := hall 1 (by simp)
      have hw : wrap (cur + elementWidth nw ww e) = cur + elementWidth nw ww e := by
        apply wrap_of_inRange
        simpa [widthOf] using h1
      have hrest : ∀ j, j < (e2 :: es2).length →
          inRange (cur + elementWidth nw ww e + widthOf nw ww ((e2 :: es2).take j)) := by
        intro j hj
        have := hall (j + 1) (by simp only [List.length_cons] at hj ⊢; omega)
        rw [List.take_succ_cons, widthOf_cons, ← add_assoc] at this
        exact this
      rw [wbarsOf, barsOf, hw, ih (i + 1) _ hrest]

theorem sign_three (nw : Int) : (0 ≤ nw ∧ 0 ≤ nw * 3) ∨ (nw ≤ 0 ∧ nw * 3 ≤ 0) := by
  omega

/-! ## The two nine-step loops -/

theorem addPatternWidth_eq (p : List Char) (nw ww : Int) :
    ∀ n i total, i + n ≤ p.length →
      addPatternWidth p nw ww n i total = some (wadvance nw ww total ((p.drop i).take n)) := by
  intro n
  induction n with
  | zero => intro i total _; simp [addPatternWidth, wadvance]
  | succ n ih =>
    intro i total hi
    have hlt : i < p.length := by omega
    rw [addPatternWidth, charAt_of_lt _ _ hlt]
    simp only
    rw [ih (i + 1) _ (by omega), take_drop_succ p n i hlt, wadvance]
    rfl

theorem drawPatternLoop_eq (p : List Char) (y h nw ww : Int) :
    ∀ n i cur, i + n ≤ p.length →
      drawPatternLoop p y h nw ww n i cur = some (wbarsOf y h nw ww i ((p.drop i).take n) cur) := by
  intro n
  induction n with
  | zero => intro i cur _; simp [drawPatternLoop, wbarsOf]
  | succ n ih =>
    intro i cur hi
    have hlt : i < p.length := by omega
    rw [drawPatternLoop, charAt_of_lt _ _ hlt]
    simp only
    rw [ih (i + 1) _ (by omega), take_drop_succ p n i hlt, wbarsOf]
    simp only [elementWidth]
    split_ifs <;> rfl

theorem addPatternWidth_nine (nw ww total : Int) (p : List Char) (h9 : p.length = 9) :
    addPatternWidth p nw ww 9 0 total = some (wadvance nw ww total p) := by
  rw [addPatternWidth_eq p nw ww 9 0 total (by omega), List.drop_zero,
    List.take_of_length_le (by omega)]

theorem drawPattern_nine (x y h nw ww : Int) (p : List Char) (h9 : p.length = 9) :
    drawPattern p x y h nw ww = some (wbarsOf y h nw ww 0 p x) := by
  rw [drawPattern, drawPatternLoop_eq p y h nw ww 9 0 x (by omega), List.drop_zero,
    List.take_of_length_le (by omega)]

theorem addPatternWidth_pattern (nw ww total : Int) (p : List Char) (hp : p ∈ PATTERNS) :
    addPatternWidth p nw ww 9 0 total = some (wadvance nw ww total p) :=
  addPatternWidth_nine nw ww total p (PATTERNS_shape p hp).1

theorem drawPattern_pattern (x y h nw ww : Int) (p : List Char) (hp : p ∈ PATTERNS) :
    drawPattern p x y h nw ww = some (wbarsOf y h nw ww 0 p x) :=
  drawPattern_nine x y h nw ww p (PATTERNS_shape p hp).1

/-- Without overflow `drawPattern` lays a 9-element pattern out as in unbounded arithmetic. -/
theorem drawPattern_ideal (x y h nw ww : Int) (p : List Char) (h9 : p.length = 9)
    (hall : ∀ j, j < p.length → inRange (x + widthOf nw ww (p.take j))) :
    drawPattern p x y h nw ww = some (barsOf y h nw ww 0 p x) := by
  rw [drawPattern_nine x y h nw ww p h9, wbarsOf_eq_barsOf y h nw ww p 0 x hall]

/-! ## The content loops and the two entry points as element sequences -/

theorem widthContent_eq (nw ww : Int) :
    ∀ text total, widthContent nw ww text total =
      some (wadvance nw ww total (encodeContent text)) := by
  intro text
  induction text with
  | nil => intro total; simp [widthContent, encodeContent, wadvance]
  | cons ch rest ih =>
    intro total
    rw [widthContent, encodeContent]
    by_cases hn : ch = NUL
    · simp [hn, wadvance]
    · rw [if_neg hn, if_neg hn]
      rcases findCharIndex_lookup (toupper ch) with ⟨h1, _, h3⟩ | ⟨p, idx, h1, _, h3, h4, h5, h6, _⟩
      · rw [h3, h1]
        simp only [ne_eq, not_true_eq_false, if_false]
        exact ih total
      · rw [h3, h1]
        simp only [ne_eq, h4, not_false_eq_true, if_true, h5]
        rw [addPatternWidth_pattern nw ww total p h6]
        simp only
        rw [ih, wadvance_append, wadvance, elementWidth_zero]

theorem drawContent_eq (y h nw ww : Int) :
    ∀ text cur, drawContent y h nw ww text cur =
      some (wbarsOf y h nw ww 0 (encodeContent text) cur,
        wadvance nw ww cur (encodeContent text)) := by
  intro text
  induction text with
  | nil => intro cur; simp [drawContent, encodeContent, wadvance, wbarsOf]
  | cons ch rest ih =>
    intro cur
    rw [drawContent, encodeContent]
    by_cases hn : ch = NUL
    · simp [hn, wadvance, wbarsOf]
    · rw [if_neg hn, if_neg hn]
      rcases findCharIndex_lookup (toupper ch) with ⟨h1, _, h3⟩ | ⟨p, idx, h1, _, h3, h4, h5, h6, _⟩
      · rw [h3, h1]
        simp only [ne_eq, not_true_eq_false, if_false]
        exact ih cur
      · rw [h3, h1]
        simp only [ne_eq, h4, not_false_eq_true, if_true, h5]
        rw [drawPattern_pattern cur y h nw ww p h6]
        simp only
        rw [ih]
        simp only
        have h9 := (PATTERNS_shape p h6).1
        have happ : p ++ '0' :: encodeContent rest = (p ++ ['0']) ++ encodeContent rest := by simp
        rw [wbarsOf_symbol y h nw ww p _ cur h9, wadvance_symbol nw ww cur p h6, happ,
          wadvance_append, wadvance_symbol nw ww cur p h6]

/-- Bridge: `getBarcodeWidth` returns the 32-bit running total over the encoded sequence. -/
theorem getBarcodeWidth_encode (text : List Char) (nw : Int) :
    getBarcodeWidth text nw = some (wadvance nw (wrap (nw * 3)) 0 (encode text)) := by
  unfold getBarcodeWidth
  simp only [patternAt_sentinel]
  rw [addPatternWidth_pattern nw _ 0 sentinel sentinel_mem]
  simp only
  rw [widthContent_eq]
  simp only
  rw [addPatternWidth_pattern nw _ _ sentinel sentinel_mem, encode, wadvance_append, wadvance,
    elementWidth_zero, wadvance_append]

/-- Bridge: `drawBarcode` issues the rectangles of the encoded sequence laid out from
`x` with the 32-bit cursor. -/
theorem drawBarcode_encode (text : List Char) (x y h nw : Int) :
    drawBarcode text x y h nw = some (wbarsOf y h nw (wrap (nw * 3)) 0 (encode text) x) := by
  unfold drawBarcode
  simp only [patternAt_sentinel]
  rw [drawPattern_pattern x y h nw _ sentinel sentinel_mem]
  simp only
  rw [drawContent_eq]
  simp only
  rw [drawPattern_pattern _ y h nw _ sentinel sentinel_mem, encode,
    wbarsOf_symbol y h nw _ sentinel _ x (by decide), wbarsOf_append,
    wadvance_symbol nw _ x sentinel sentinel_mem]
  have hpar : wbarsOf y h nw (wrap (nw * 3)) (0 + (encodeContent text).length) sentinel
      (wadvance nw (wrap (nw * 3))
        (wrap (x + wrap (wrap (wrap (6 * nw) + wrap (3 * wrap (nw * 3))) + nw)))
        (encodeContent text)) =
      wbarsOf y h nw (wrap (nw * 3)) 0 sentinel
      (wadvance nw (wrap (nw * 3))
        (wrap (x + wrap (wrap (wrap (6 * nw) + wrap (3 * wrap (nw * 3))) + nw)))
        (encodeContent text)) :=
    wbarsOf_parity _ _ _ _ _ _ _ _ (by
      rw [Nat.zero_add]; exact encodeContent_length_even text)
  simp only [hpar, List.append_assoc]

/-! ## Results in unbounded arithmetic when nothing overflows -/

theorem widthOf_encode (text : List Char) (nw : Int) :
    widthOf nw (nw * 3) (encode text) = idealWidth text nw := by
  rw [encode, widthOf_append, widthOf_cons, widthOf_append, elementWidth_zero,
    widthOf_encodeContent, widthOf_pattern nw _ sentinel sentinel_mem, idealWidth, supportedCount]
  have hsup : supported = (fun ch => decide (toupper ch ∈ CHARS)) := rfl
  rw [hsup]
  ring

/-- On every input `getBarcodeWidth` returns `(31 + 16 * k) * narrowWidth` reduced to 32 bits. -/
theorem getBarcodeWidth_wrap (text : List Char) (nw : Int) :
    getBarcodeWidth text nw = some (wrap (idealWidth text nw)) := by
  rw [getBarcodeWidth_encode, ← widthOf_encode]
  have hne : encode text = '0' :: ("10010100".toList ++ '0' :: (encodeContent text ++ sentinel)) :=
    encode_first text
  rw [hne, wadvance_cons, wrap_widthOf_wide, zero_add]

theorem getBarcodeWidth_formula (text : List Char) (nw : Int)
    (hW : inRange (idealWidth text nw)) :
    getBarcodeWidth text nw = some (idealWidth text nw) := by
  rw [getBarcodeWidth_wrap, wrap_of_inRange _ hW]

theorem three_inRange (text : List Char) (nw : Int) (hW : inRange (idealWidth text nw)) :
    inRange (nw * 3) := by
  unfold idealWidth at hW
  obtain ⟨h1, h2⟩ := hW
  have hk : (0 : Int) ≤ (supportedCount text : Int) := Int.ofNat_nonneg _
  have e : (31 + 16 * (supportedCount text : Int)) * nw =
      31 * nw + 16 * ((supportedCount text : Int) * nw) := by ring
  rw [e] at h1 h2
  rcases le_total 0 nw with hn | hn
  · have hm := mul_nonneg hk hn
    constructor <;> omega
  · have hm := mul_nonpos_of_nonneg_of_nonpos hk hn
    constructor <;> omega

theorem three_inRange_of_cursor (text : List Char) (x nw : Int) (hx : inRange x)
    (hxW : inRange (x + idealWidth text nw)) : inRange (nw * 3) := by
  unfold idealWidth at hxW
  obtain ⟨h1, h2⟩ := hxW
  obtain ⟨h3, h4⟩ := hx
  have hk : (0 : Int) ≤ (supportedCount text : Int) := Int.ofNat_nonneg _
  have e : (31 + 16 * (supportedCount text : Int)) * nw =
      31 * nw + 16 * ((supportedCount text : Int) * nw) := by ring
  rw [e] at h1 h2
  rcases le_total 0 nw with hn | hn
  · have hm := mul_nonneg hk hn
    constructor <;> omega
  · have hm := mul_nonpos_of_nonneg_of_nonpos hk hn
    constructor <;> omega

/-- Without overflow of the cursor `drawBarcode` lays the encoded sequence out as in
unbounded arithmetic. -/
theorem drawBarcode_ideal (text : List Char) (x y h nw : Int) (hx : inRange x)
    (hxW : inRange (x + idealWidth text nw)) :
    drawBarcode text x y h nw = some (barsOf y h nw (nw * 3) 0 (encode text) x) := by
  rw [drawBarcode_encode, wrap_of_inRange _ (three_inRange_of_cursor text x nw hx hxW)]
  rw [wbarsOf_eq_barsOf y h nw (nw * 3) (encode text) 0 x
    (inRange_take nw (nw * 3) (sign_three nw) (encode text) x hx
      (by rw [widthOf_encode]; exact hxW))]

/-! ## The spec's sequencer as an element sequence -/

theorem specRenderFrom_eq (y h nw : Int) :
    ∀ ps : List (List Char), (∀ p ∈ ps, p ∈ PATTERNS) → ∀ cur, inRange cur →
      inRange (cur + widthOf nw (nw * 3) (encodeSymbols ps ++ sentinel)) →
      specRenderFrom y h nw ps cur =
        some (barsOf y h nw (nw * 3) 0 (encodeSymbols ps ++ sentinel) cur) := by
  intro ps
  induction ps with
  | nil =>
    intro _ cur hc he
    rw [specRenderFrom, drawPattern_ideal cur y h nw (nw * 3) sentinel (by decide)
      (inRange_take nw (nw * 3) (sign_three nw) sentinel cur hc (by simpa [encodeSymbols] using he))]
    rfl
  | cons p ps ih =>
    intro hps cur hc he
    have hp : p ∈ PATTERNS := hps p (List.mem_cons_self _ _)
    have h9 := (PATTERNS_shape p hp).1
    have hsplit : encodeSymbols (p :: ps) ++ sentinel =
        p ++ ('0' :: (encodeSymbols ps ++ sentinel)) := by
      simp [encodeSymbols]
    have hsplit2 : encodeSymbols (p :: ps) ++ sentinel =
        (p ++ ['0']) ++ (encodeSymbols ps ++ sentinel) := by
      simp [encodeSymbols]
    have hp1 : inRange (cur + widthOf nw (nw * 3) p) :=
      inRange_initial nw (nw * 3) (sign_three nw) p _ cur hc (hsplit ▸ he)
    have hp2 : inRange (cur + widthOf nw (nw * 3) (p ++ ['0'])) :=
      inRange_initial nw (nw * 3) (sign_three nw) _ _ cur hc (hsplit2 ▸ he)
    have hadv : cur + (specPatternWidth nw p + nw) = cur + widthOf nw (nw * 3) (p ++ ['0']) := by
      rw [specPatternWidth_eq, widthOf_append, widthOf_cons, elementWidth_zero]
      simp [widthOf]
    have he2 : inRange (cur + widthOf nw (nw * 3) (p ++ ['0']) +
        widthOf nw (nw * 3) (encodeSymbols ps ++ sentinel)) := by
      rw [add_assoc, ← widthOf_append, ← hsplit2]
      exact he
    rw [specRenderFrom, drawPattern_ideal cur y h nw (nw * 3) p h9
      (inRange_take nw (nw * 3) (sign_three nw) p cur hc hp1), hadv,
      ih (fun q hq => hps q (List.mem_cons_of_mem _ hq)) _ hp2 he2]
    simp only
    rw [hsplit, barsOf_symbol y h nw (nw * 3) p _ cur h9]
    congr 3
    rw [widthOf_append, widthOf_cons, elementWidth_zero]
    simp [widthOf]

theorem specRender_encode (text : List Char) (x y h nw : Int) (hx : inRange x)
    (hxW : inRange (x + idealWidth text nw)) :
    specRender text x y h nw = some (barsOf y h nw (nw * 3) 0 (encode text) x) := by
  have he : encodeSymbols (sentinel :: specSymbols text) ++ sentinel = encode text := by
    simp only [encodeSymbols, encode, encodeContent_symbols, List.cons_append, List.append_assoc]
  rw [specRender, specRenderFrom_eq y h nw _ (by
    intro p hp
    rcases List.mem_cons.mp hp with rfl | hp
    · exact sentinel_mem
    · exact specSymbols_mem text p hp) x hx (by rw [he, widthOf_encode]; exact hxW), he]

/-! ## Absence of overflow from the range of the result -/

theorem units_inRange (text : List Char) (nw : Int) (hW : inRange (idealWidth text nw)) :
    inRange (15 * nw) ∧ inRange (16 * nw) := by
  unfold idealWidth at hW
  obtain ⟨h1, h2⟩ := hW
  have hk : (0 : Int) ≤ (supportedCount text : Int) := Int.ofNat_nonneg _
  have e : (31 + 16 * (supportedCount text : Int)) * nw =
      31 * nw + 16 * ((supportedCount text : Int) * nw) := by ring
  rw [e] at h1 h2
  rcases le_total 0 nw with hn | hn
  · have hm := mul_nonneg hk hn
    refine ⟨⟨?_, ?_⟩, ⟨?_, ?_⟩⟩ <;> omega
  · have hm := mul_nonpos_of_nonneg_of_nonpos hk hn
    refine ⟨⟨?_, ?_⟩, ⟨?_, ?_⟩⟩ <;> omega

theorem code_advance (nw : Int) (h16 : inRange (16 * nw)) :
    wrap (wrap (wrap (6 * nw) + wrap (3 * wrap (nw * 3))) + nw) = 16 * nw := by
  obtain ⟨h1, h2⟩ := h16
  unfold wrap
  omega

theorem code_pattern_constant (nw : Int) (h15 : inRange (15 * nw)) :
    wrap (wrap (6 * nw) + wrap (3 * wrap (nw * 3))) = 15 * nw := by
  obtain ⟨h1, h2⟩ := h15
  unfold wrap
  omega

theorem idealWidth_star (before after : List Char) (nw : Int) (hb : NUL ∉ before) :
    idealWidth (before ++ '*' :: after) nw = idealWidth (before ++ after) nw + 16 * nw := by
  rw [← widthOf_encode, ← widthOf_encode, encode, encode, encodeContent_append _ _ hb,
    encodeContent_append _ _ hb, encodeContent_star]
  simp only [widthOf_append, widthOf_cons, elementWidth_zero,
    widthOf_pattern nw (nw * 3) sentinel sentinel_mem]
  ring

theorem supportedCount_append (before rest : List Char) (hb : NUL ∉ before) :
    supportedCount (before ++ rest) =
      (before.filter (fun ch => decide (toupper ch ∈ CHARS))).length + supportedCount rest := by
  induction before with
  | nil => simp
  | cons ch more ih =>
    have hch : ch ≠ NUL := fun e => hb (e ▸ List.mem_cons_self _ _)
    have ih2 := ih (fun hm => hb (List.mem_cons_of_mem _ hm))
    unfold supportedCount at ih2 ⊢
    rw [List.cons_append, cstr_cons, if_neg hch, List.filter_cons, List.filter_cons]
    split
    · simp [ih2]
      omega
    · simp [ih2]

theorem supportedCount_star (rest : List Char) :
    supportedCount ('*' :: rest) = supportedCount rest + 1 := by
  unfold supportedCount
  rw [cstr_cons, if_neg (by decide), List.filter_cons]
  have : decide (toupper '*' ∈ CHARS) = true := by decide
  simp [this]

/-! ## The properties -/

/-- C1, where no `int` overflows: for every text, origin, height and positive narrow width such that
no `int` overflows, i.e. `x`, `(31 + 16 * k) * narrowWidth` and their sum are
representable in 32 bits, the rectangles issued by `drawBarcode` span exactly
`getBarcodeWidth` pixels horizontally: some rectangle starts at `x` and none starts
further left, some rectangle ends at `x + getBarcodeWidth text narrowWidth` and none
ends further right. -/
theorem drawBarcode_extent (text : List Char) (x y height narrowWidth : Int)
    (hpos : 0 < narrowWidth) (hx : inRange x) (hW : inRange (idealWidth text narrowWidth))
    (hxW : inRange (x + idealWidth text narrowWidth)) :
    ∃ rects total, drawBarcode text x y height narrowWidth = some rects ∧
      getBarcodeWidth text narrowWidth = some total ∧
      (∃ r ∈ rects, r.x = x) ∧ (∀ r ∈ rects, x ≤ r.x) ∧
      (∃ r ∈ rects, r.x + r.w = x + total) ∧ (∀ r ∈ rects, r.x + r.w ≤ x + total) := by
  have h1 : (0 : Int) ≤ narrowWidth := by omega
  have h2 : (0 : Int) ≤ narrowWidth * 3 := by omega
  refine ⟨_, _, drawBarcode_ideal text x y height narrowWidth hx hxW,
    getBarcodeWidth_formula text narrowWidth hW, ?_, ?_, ?_, ?_⟩
  · refine ⟨⟨x, y, elementWidth narrowWidth (narrowWidth * 3) '0', height, 0⟩, ?_, rfl⟩
    rw [encode_first]
    exact barsOf_first _ _ _ _ _ _ _
  · intro r hr
    exact (barsOf_within y height narrowWidth _ h1 h2 _ _ _ r hr).1
  · refine ⟨⟨x + widthOf narrowWidth (narrowWidth * 3)
        (sentinel ++ '0' :: (encodeContent text ++ "01001010".toList)), y,
        elementWidth narrowWidth (narrowWidth * 3) '0', height, 0⟩, ?_, ?_⟩
    · rw [encode_last]
      exact barsOf_last _ _ _ _ _ _ _ (encode_init_even text)
    · rw [← widthOf_encode, encode_last, widthOf_append, widthOf_cons]
      simp [widthOf]
      ring
  · intro r hr
    rw [← widthOf_encode]
    exact (barsOf_within y height narrowWidth _ h1 h2 _ _ _ r hr).2

/-- C1 at the demo call: text `6103268` drawn at `(10, 50)`, height 45, narrow width 1. -/
theorem drawBarcode_extent_witness :
    (0 : Int) < 1 ∧ inRange 10 ∧ inRange (idealWidth "6103268".toList 1) ∧
    inRange (10 + idealWidth "6103268".toList 1) ∧
    ∃ rects total, drawBarcode "6103268".toList 10 50 45 1 = some rects ∧
      getBarcodeWidth "6103268".toList 1 = some total ∧
      (∃ r ∈ rects, r.x = 10) ∧ (∀ r ∈ rects, 10 ≤ r.x) ∧
      (∃ r ∈ rects, r.x + r.w = 10 + total) ∧ (∀ r ∈ rects, r.x + r.w ≤ 10 + total) :=
  ⟨by decide, by decide, by decide, by decide,
    drawBarcode_extent "6103268".toList 10 50 45 1 (by decide) (by decide) (by decide)
      (by decide)⟩

/-- C1 fails where the cursor overflows: for the empty text at
`x = 2147483640`, narrow width 1, the width is 31, yet a rectangle starts left of
`x` and no rectangle ends at `x + 31`. -/
theorem drawBarcode_extent_overflow :
    (0 : Int) < 1 ∧ inRange 2147483640 ∧
    ∃ rects, drawBarcode [] 2147483640 50 45 1 = some rects ∧
      getBarcodeWidth [] 1 = some 31 ∧
      (∃ r ∈ rects, r.x < 2147483640) ∧ (∀ r ∈ rects, r.x + r.w ≠ 2147483640 + 31) := by
  refine ⟨by decide, by decide, _, rfl, by decide, ?_, ?_⟩ <;> decide

/-- C2, where no `int` overflows: whenever `x`, the advance
`16 * narrowWidth` and the right end `x + (31 + 16 * k) * narrowWidth` are
representable in 32 bits, `drawBarcode` equals the spec's reference
draw sequencer (start sentinel at `x`, each table pattern of the uppercased text in
input order at a cursor that advances by `patternWidth + narrowWidth` after each
drawn pattern, stop sentinel last), and the hard-coded advance
`6*narrowWidth + 3*wideWidth + narrowWidth` agrees with `patternWidth + narrowWidth`
for every table pattern; `drawBarcode` produces its rectangles in any case. -/
theorem drawBarcode_refines_spec (text : List Char) (x y height narrowWidth : Int)
    (hx : inRange x) (hadvance : inRange (16 * narrowWidth))
    (hxW : inRange (x + idealWidth text narrowWidth)) :
    drawBarcode text x y height narrowWidth = specRender text x y height narrowWidth ∧
    (drawBarcode text x y height narrowWidth).isSome = true ∧
    ∀ p ∈ PATTERNS,
      wrap (wrap (wrap (6 * narrowWidth) + wrap (3 * wrap (narrowWidth * 3))) + narrowWidth) =
        specPatternWidth narrowWidth p + narrowWidth := by
  refine ⟨?_, ?_, ?_⟩
  · rw [drawBarcode_ideal text x y height narrowWidth hx hxW,
      specRender_encode text x y height narrowWidth hx hxW]
  · rw [drawBarcode_encode]; rfl
  · intro p hp
    rw [specPatternWidth_eq, widthOf_pattern narrowWidth _ p hp,
      code_advance narrowWidth hadvance]
    ring

/-- C2 at the demo call: text `6103268` drawn at `(10, 50)`, height 45, narrow width 1. -/
theorem drawBarcode_refines_spec_witness :
    inRange 10 ∧ inRange (16 * 1) ∧
    inRange (10 + idealWidth "6103268".toList 1) ∧
    drawBarcode "6103268".toList 10 50 45 1 = specRender "6103268".toList 10 50 45 1 :=
  ⟨by decide, by decide, by decide,
    (drawBarcode_refines_spec "6103268".toList 10 50 45 1 (by decide) (by decide)
      (by decide)).1⟩

/-- C2 fails where the cursor overflows: for the empty text at
`x = 2147483640`, narrow width 1, `drawBarcode` draws the stop sentinel at the
wrapped cursor, the reference sequencer at `x + 16`. -/
theorem drawBarcode_refines_spec_overflow :
    inRange 2147483640 ∧
    drawBarcode [] 2147483640 50 45 1 ≠ specRender [] 2147483640 50 45 1 := by
  decide

/-- C3, where no `int` overflows: round trip. For every text and positive narrow width such that the
cursor does not overflow, i.e. `x` and the right end `x + (31 + 16 * k) * narrowWidth`
are representable in 32 bits, `drawBarcode` issues rectangles which the reference decoder
(bars and the spaces between them read left to right, widths classified as narrow or
wide, split into 9-element symbols separated by one narrow gap, each symbol mapped
back through the table) reads as `*`, then the uppercased text without the
characters outside the alphabet, then `*`. -/
theorem drawBarcode_roundtrip (text : List Char) (x y height narrowWidth : Int)
    (hpos : 0 < narrowWidth) (hx : inRange x)
    (hxW : inRange (x + idealWidth text narrowWidth)) :
    ∃ rects, drawBarcode text x y height narrowWidth = some rects ∧
      decode narrowWidth rects =
        some ('*' :: (((cstr text).map toupper).filter (fun c => decide (c ∈ CHARS)) ++ ['*'])) :=
  ⟨_, drawBarcode_ideal text x y height narrowWidth hx hxW,
    decode_barsOf_encode text x y height narrowWidth (by omega)⟩

/-- C3 at the demo call: text `6103268` drawn at `(10, 50)`, height 45, narrow width 1. -/
theorem drawBarcode_roundtrip_witness :
    (0 : Int) < 1 ∧ inRange 10 ∧ inRange (10 + idealWidth "6103268".toList 1) ∧
    ∃ rects, drawBarcode "6103268".toList 10 50 45 1 = some rects ∧
      decode 1 rects =
        some ('*' :: (((cstr "6103268".toList).map toupper).filter
          (fun c => decide (c ∈ CHARS)) ++ ['*'])) :=
  ⟨by decide, by decide, by decide,
    drawBarcode_roundtrip "6103268".toList 10 50 45 1 (by decide) (by decide) (by decide)⟩

/-- C3 fails where the cursor overflows: for the empty text at
`x = 2147483640`, narrow width 1, the decoder cannot read the issued rectangles. -/
theorem drawBarcode_roundtrip_overflow :
    (0 : Int) < 1 ∧ inRange 2147483640 ∧
    ∃ rects, drawBarcode [] 2147483640 50 45 1 = some rects ∧ decode 1 rects = none := by
  refine ⟨by decide, by decide, _, rfl, ?_⟩
  decide

/-- C4: the symbol table has exactly 44 characters and 44 patterns, the characters
are pairwise distinct, the patterns are pairwise distinct, so the map from a
character to its pattern is injective; exactly one character is the sentinel `*`,
it sits at index 43, where `findCharIndex` finds it, and index 43 holds the pattern
that `getBarcodeWidth` and `drawBarcode` use directly as start and stop. -/
theorem symbol_table_invariant :
    CHARS.length = 44 ∧ PATTERNS.length = 44 ∧ CHARS.Nodup ∧ PATTERNS.Nodup ∧
    (∀ c ∈ CHARS, ∀ d ∈ CHARS, specLookup c = specLookup d → c = d) ∧
    (∀ c ∈ CHARS, ∃ i : Fin 44, findCharIndex c = some (i.val : Int) ∧
      patternAt (i.val : Int) = specLookup c ∧ (specLookup c).isSome = true) ∧
    CHARS.count '*' = 1 ∧ CHARS[43]? = some '*' ∧ findCharIndex '*' = some 43 ∧
    patternAt 43 = some "010010100".toList ∧ specLookup '*' = patternAt 43 := by
  decide

/-- C5, where the total does not overflow: whenever `(31 + 16 * k) * narrowWidth` is representable as a 32-bit
`int`, `getBarcodeWidth text narrowWidth` is that number, where `k` counts the
characters of the text whose uppercase form is in the alphabet; in particular the
width of `6103268` at narrow width 1 is 143. -/
theorem getBarcodeWidth_closed_form (text : List Char) (narrowWidth : Int)
    (hfits : inRange ((31 + 16 *
      (((cstr text).filter (fun ch => decide (toupper ch ∈ CHARS))).length : Int)) * narrowWidth)) :
    getBarcodeWidth text narrowWidth =
      some ((31 + 16 * (((cstr text).filter (fun ch => decide (toupper ch ∈ CHARS))).length : Int))
        * narrowWidth) ∧
    getBarcodeWidth "6103268".toList 1 = some 143 :=
  ⟨getBarcodeWidth_formula text narrowWidth hfits, by decide⟩

/-- C5 at the text `AB-12` and narrow width 2: five supported characters. -/
theorem getBarcodeWidth_closed_form_witness :
    inRange ((31 + 16 *
      (((cstr "AB-12".toList).filter (fun ch => decide (toupper ch ∈ CHARS))).length : Int)) * 2) ∧
    getBarcodeWidth "AB-12".toList 2 =
      some ((31 + 16 *
        (((cstr "AB-12".toList).filter (fun ch => decide (toupper ch ∈ CHARS))).length : Int)) * 2) :=
  ⟨by decide, (getBarcodeWidth_closed_form "AB-12".toList 2 (by decide)).1⟩

/-- C5 fails where the total overflows: for the empty text (`k = 0`) and
narrow width 100000000 the function returns `-1194967296`, not `3100000000`. -/
theorem getBarcodeWidth_closed_form_overflow :
    inRange 100000000 ∧
    getBarcodeWidth [] 100000000 = some (-1194967296) ∧
    getBarcodeWidth [] 100000000 ≠
      some ((31 + 16 *
        (((cstr []).filter (fun ch => decide (toupper ch ∈ CHARS))).length : Int)) * 100000000) := by
  decide

/-- C6, where no `int` overflows: for a text with no character whose uppercase form is in the
alphabet (the empty text included) and a narrow width for which `31 * narrowWidth`
is representable as a 32-bit `int`, `getBarcodeWidth` is two sentinel pattern widths
plus one gap, which is `31 * narrowWidth` and nonzero for a positive narrow width;
the width of the empty text at narrow width 1 is 31. -/
theorem getBarcodeWidth_unsupported_only (text : List Char) (narrowWidth : Int)
    (hnone : ∀ ch ∈ cstr text, toupper ch ∉ CHARS) (hfits : inRange (31 * narrowWidth)) :
    ∃ sentinelWidth,
      addPatternWidth sentinel narrowWidth (wrap (narrowWidth * 3)) 9 0 0 = some sentinelWidth ∧
      getBarcodeWidth text narrowWidth = some (sentinelWidth + narrowWidth + sentinelWidth) ∧
      sentinelWidth + narrowWidth + sentinelWidth = 31 * narrowWidth ∧
      (0 < narrowWidth → 31 * narrowWidth ≠ 0) ∧
      getBarcodeWidth [] 1 = some 31 := by
  have hk : supportedCount text = 0 := by
    unfold supportedCount
    rw [List.length_eq_zero, List.filter_eq_nil_iff]
    intro ch hch
    simpa using hnone ch hch
  have hid : idealWidth text narrowWidth = 31 * narrowWidth := by
    rw [idealWidth, hk]
    simp
  have hW : inRange (idealWidth text narrowWidth) := by rw [hid]; exact hfits
  have h15 : wrap (15 * narrowWidth) = 15 * narrowWidth :=
    wrap_of_inRange _ (units_inRange text narrowWidth hW).1
  refine ⟨15 * narrowWidth, ?_, ?_, by ring, ?_, by decide⟩
  · rw [addPatternWidth_pattern narrowWidth _ 0 sentinel sentinel_mem]
    have hs : sentinel = '0' :: "10010100".toList := by decide
    rw [hs, wadvance_cons, wrap_widthOf_wide, ← hs,
      widthOf_pattern narrowWidth _ sentinel sentinel_mem, ← h15]
    congr 2
    ring
  · rw [getBarcodeWidth_formula text narrowWidth hW, hid]
    congr 1
    ring
  · intro h; omega

/-- C6 at the text `!?` and narrow width 2. -/
theorem getBarcodeWidth_unsupported_only_witness :
    (∀ ch ∈ cstr "!?".toList, toupper ch ∉ CHARS) ∧ inRange (31 * 2) ∧
    ∃ sentinelWidth, addPatternWidth sentinel 2 (wrap (2 * 3)) 9 0 0 = some sentinelWidth ∧
      getBarcodeWidth "!?".toList 2 = some (sentinelWidth + 2 + sentinelWidth) ∧
      sentinelWidth + 2 + sentinelWidth = 31 * 2 ∧
      ((0 : Int) < 2 → (31 : Int) * 2 ≠ 0) ∧
      getBarcodeWidth [] 1 = some 31 :=
  ⟨by decide, by decide, getBarcodeWidth_unsupported_only "!?".toList 2 (by decide) (by decide)⟩

/-- C6 fails where the total overflows: the text `!` has no supported
character, and at narrow width 1431655766 the function returns `1431655786`, not
`31 * 1431655766`. -/
theorem getBarcodeWidth_unsupported_only_overflow :
    (∀ ch ∈ cstr "!".toList, toupper ch ∉ CHARS) ∧ inRange 1431655766 ∧
    getBarcodeWidth "!".toList 1431655766 = some 1431655786 ∧
    getBarcodeWidth "!".toList 1431655766 ≠ some (31 * 1431655766) := by
  decide

/-- C7: `getBarcodeWidth` is case-insensitive: a text and its uppercase form have
the same width, in particular `A` and `a`. -/
theorem getBarcodeWidth_case_insensitive (text : List Char) (narrowWidth : Int) :
    getBarcodeWidth text narrowWidth = getBarcodeWidth (text.map toupper) narrowWidth ∧
    getBarcodeWidth "A".toList narrowWidth = getBarcodeWidth "a".toList narrowWidth := by
  constructor
  · rw [getBarcodeWidth_encode, getBarcodeWidth_encode, encode, encode, encodeContent_toupper]
  · rw [getBarcodeWidth_wrap, getBarcodeWidth_wrap]
    rfl

/-- C8: inserting into (or deleting from) a text, at any position, a character whose
uppercase form is not in the alphabet leaves `getBarcodeWidth` unchanged; in
particular `A!B` and `AB` have the same width. The inserted character is a
character of a C string, hence not the terminator. -/
theorem getBarcodeWidth_unsupported_invariant (before after : List Char) (c : Char)
    (narrowWidth : Int) (hc : c ≠ NUL) (hunsupported : toupper c ∉ CHARS) :
    getBarcodeWidth (before ++ c :: after) narrowWidth =
      getBarcodeWidth (before ++ after) narrowWidth ∧
    getBarcodeWidth "A!B".toList narrowWidth = getBarcodeWidth "AB".toList narrowWidth := by
  constructor
  · rw [getBarcodeWidth_encode, getBarcodeWidth_encode, encode, encode,
      encodeContent_skip before after c hc hunsupported]
  · rw [getBarcodeWidth_wrap, getBarcodeWidth_wrap]
    rfl

/-- C8 at `A!B` against `AB`, narrow width 2. -/
theorem getBarcodeWidth_unsupported_invariant_witness :
    '!' ≠ NUL ∧ toupper '!' ∉ CHARS ∧
    getBarcodeWidth ("A".toList ++ '!' :: "B".toList) 2 =
      getBarcodeWidth ("A".toList ++ "B".toList) 2 :=
  ⟨by decide, by decide,
    (getBarcodeWidth_unsupported_invariant "A".toList "B".toList '!' 2 (by decide) (by decide)).1⟩

/-- C9: the engine is total. `findCharIndex` always returns, with `-1` or an index
in `0..43`; every table pattern has at least 9 characters; every index it returns
other than `-1` selects a table pattern whose reads `pattern[0..8]` are in bounds;
and `getBarcodeWidth`, `drawBarcode` and `drawPattern` on a table pattern complete
on every input without an out-of-bounds read. -/
theorem engine_total :
    (∀ c : Char, ∃ idx, findCharIndex c = some idx ∧ (idx = -1 ∨ (0 ≤ idx ∧ idx ≤ 43))) ∧
    (∀ p ∈ PATTERNS, 9 ≤ p.length) ∧
    (∀ (c : Char) (idx : Int), findCharIndex c = some idx → idx ≠ -1 →
      ∃ p, patternAt idx = some p ∧ ∀ i < 9, (charAt p i).isSome = true) ∧
    (∀ i < 9, ∃ p, patternAt 43 = some p ∧ (charAt p i).isSome = true) ∧
    (∀ (text : List Char) (narrowWidth : Int), (getBarcodeWidth text narrowWidth).isSome = true) ∧
    (∀ (text : List Char) (x y height narrowWidth : Int),
      (drawBarcode text x y height narrowWidth).isSome = true) ∧
    (∀ p ∈ PATTERNS, ∀ x y height narrowWidth wideWidth : Int,
      (drawPattern p x y height narrowWidth wideWidth).isSome = true) := by
  refine ⟨?_, ?_, ?_, ?_, ?_, ?_, ?_⟩
  · intro c
    rcases findCharIndex_lookup c with ⟨_, _, h3⟩ | ⟨p, idx, _, _, h3, _, _, _, hb⟩
    · exact ⟨_, h3, Or.inl rfl⟩
    · exact ⟨_, h3, Or.inr hb⟩
  · intro p hp
    exact le_of_eq (PATTERNS_shape p hp).1.symm
  · intro c idx hidx hne
    rcases findCharIndex_lookup c with ⟨_, _, h3⟩ | ⟨p, idx2, _, _, h3, _, h5, h6, _⟩
    · rw [h3] at hidx
      exact absurd (Option.some.inj hidx).symm hne
    · rw [h3] at hidx
      cases hidx
      refine ⟨p, h5, ?_⟩
      intro i hi
      have h9 := (PATTERNS_shape p h6).1
      rw [charAt_of_lt p i (by omega)]
      rfl
  · decide
  · intro text narrowWidth
    rw [getBarcodeWidth_encode]; rfl
  · intro text x y height narrowWidth
    rw [drawBarcode_encode]; rfl
  · intro p hp x y height narrowWidth wideWidth
    rw [drawPattern_pattern x y height narrowWidth wideWidth p hp]; rfl

/-- C10, where no `int` overflows: every one of the 44 table patterns has exactly 9 elements over
`0`/`1`, exactly 3 wide and 6 narrow; so, whenever `15 * narrowWidth` and the running
total plus `15 * narrowWidth` are representable as 32-bit `int`s, the element-wise
width `getBarcodeWidth` adds for the pattern equals
`6*narrowWidth + 3*(3*narrowWidth) = 15*narrowWidth`, which is also the constant
`6 * narrowWidth + 3 * wideWidth` by which `drawBarcode` advances its cursor. -/
theorem pattern_shape (p : List Char) (hp : p ∈ PATTERNS) (narrowWidth total : Int)
    (h15 : inRange (15 * narrowWidth)) (hfits : inRange (total + 15 * narrowWidth)) :
    PATTERNS.length = 44 ∧ p.length = 9 ∧ (∀ e ∈ p, e = '0' ∨ e = '1') ∧
    p.count '1' = 3 ∧ p.count '0' = 6 ∧
    addPatternWidth p narrowWidth (wrap (narrowWidth * 3)) 9 0 total =
      some (total + (6 * narrowWidth + 3 * (narrowWidth * 3))) ∧
    wrap (wrap (6 * narrowWidth) + wrap (3 * wrap (narrowWidth * 3))) =
      6 * narrowWidth + 3 * (narrowWidth * 3) ∧
    6 * narrowWidth + 3 * (narrowWidth * 3) = 15 * narrowWidth := by
  obtain ⟨h1, h2, h3⟩ := PATTERNS_shape p hp
  refine ⟨by decide, h1, PATTERNS_binary p hp, h3, h2, ?_, ?_, by ring⟩
  · rw [addPatternWidth_pattern narrowWidth _ total p hp]
    match p, h1, hp with
    | e :: es, _, hp =>
      rw [wadvance_cons, wrap_widthOf_wide, widthOf_pattern narrowWidth _ _ hp]
      have e15 : total + (6 * narrowWidth + 3 * (narrowWidth * 3)) = total + 15 * narrowWidth := by
        ring
      rw [e15, wrap_of_inRange _ hfits]
  · rw [code_pattern_constant narrowWidth h15]
    ring

/-- C10 at the sentinel pattern `010010100`, narrow width 2, running total 0. -/
theorem pattern_shape_witness :
    "010010100".toList ∈ PATTERNS ∧ inRange (15 * 2) ∧ inRange (0 + 15 * 2) ∧
    addPatternWidth "010010100".toList 2 (wrap (2 * 3)) 9 0 0 = some (0 + (6 * 2 + 3 * (2 * 3))) :=
  ⟨by decide, by decide, by decide,
    (pattern_shape "010010100".toList (by decide) 2 0 (by decide) (by decide)).2.2.2.2.2.1⟩

/-- C10 fails where the total overflows: for the sentinel pattern at narrow
width 1000000000 the loop of `getBarcodeWidth` adds `2115098112`, not
`15 * 1000000000`. -/
theorem pattern_shape_overflow :
    "010010100".toList ∈ PATTERNS ∧ inRange 1000000000 ∧
    addPatternWidth "010010100".toList 1000000000 (wrap (1000000000 * 3)) 9 0 0 =
      some 2115098112 ∧
    addPatternWidth "010010100".toList 1000000000 (wrap (1000000000 * 3)) 9 0 0 ≠
      some (0 + (6 * 1000000000 + 3 * (1000000000 * 3))) := by
  decide

/-- C11, where no `int` overflows: for every 9-element pattern and every origin, height and narrow
width such that no `int` in use overflows, i.e. `3 * narrowWidth` and the value of
the local cursor in front of every element (`px` plus the summed widths of the first
`i` elements, `i ≤ 8`) are representable in 32 bits, `drawPattern`, called as `drawBarcode` calls it, issues
exactly 5 `fillRect` calls, those of the even indices 0, 2, 4, 6, 8 in increasing
order and none for an odd index; the call of index `i` has width `narrowWidth` when
`p[i]` is narrow and `3 * narrowWidth` when it is wide, the given `y` and `height`,
ink `0x0000`, and left edge `px` plus the summed widths of the elements `0..i-1`,
bars and spaces alike. -/
theorem drawPattern_calls (p : List Char) (px y height narrowWidth : Int)
    (hlen : p.length = 9) (hwide : inRange (3 * narrowWidth))
    (hcursor : ∀ i, i ≤ 8 → inRange
      (px + ((p.take i).map fun e => if e = '0' then narrowWidth else 3 * narrowWidth).sum)) :
    drawPattern p px y height narrowWidth (wrap (narrowWidth * 3)) =
      some ([0, 2, 4, 6, 8].map fun i =>
        { x := px + ((p.take i).map fun e => if e = '0' then narrowWidth else 3 * narrowWidth).sum,
          y := y,
          w := if p[i]? = some '0' then narrowWidth else 3 * narrowWidth,
          h := height,
          color := 0x0000 }) := by
  have hw3 : wrap (narrowWidth * 3) = narrowWidth * 3 :=
    wrap_of_inRange _ (by obtain ⟨a, b⟩ := hwide; constructor <;> omega)
  have hall : ∀ j, j < p.length →
      inRange (px + widthOf narrowWidth (narrowWidth * 3) (p.take j)) := by
    intro j hj
    rw [← specPatternWidth_eq]
    exact hcursor j (by omega)
  rw [hw3, drawPattern_ideal px y height narrowWidth (narrowWidth * 3) p hlen hall]
  match p, hlen with
  | [e0, e1, e2, e3, e4, e5, e6, e7, e8], _ =>
    simp only [barsOf, elementWidth_three, List.map_cons, List.map_nil, List.take_succ_cons,
      List.take_zero, List.sum_cons, List.sum_nil]
    simp
    refine ⟨?_, ?_, ?_, ?_⟩ <;> ring

/-- C11 at the sentinel pattern `010010100` drawn at `(10, 50)`, height 45, narrow width 1. -/
theorem drawPattern_calls_witness :
    "010010100".toList.length = 9 ∧ inRange (3 * 1) ∧
    (∀ i, i ≤ 8 → inRange
      (10 + (("010010100".toList.take i).map fun e => if e = '0' then (1 : Int) else 3 * 1).sum)) ∧
    drawPattern "010010100".toList 10 50 45 1 (wrap (1 * 3)) =
      some ([0, 2, 4, 6, 8].map fun i =>
        { x := 10 + (("010010100".toList.take i).map fun e => if e = '0' then 1 else 3 * 1).sum,
          y := 50,
          w := if "010010100".toList[i]? = some '0' then 1 else 3 * 1,
          h := 45,
          color := 0x0000 }) :=
  ⟨by decide, by decide, by decide,
    drawPattern_calls "010010100".toList 10 50 45 1 (by decide) (by decide) (by decide)⟩

/-- C11 fails where the local cursor overflows: for the sentinel pattern at
`px = 2147483640`, narrow width 1, the fourth call has left edge `-2147483646`, not
`px + 10`. -/
theorem drawPattern_calls_overflow :
    "010010100".toList.length = 9 ∧ inRange 2147483640 ∧
    drawPattern "010010100".toList 2147483640 50 45 1 (wrap (1 * 3)) ≠
      some ([0, 2, 4, 6, 8].map fun i =>
        { x := 2147483640 +
            (("010010100".toList.take i).map fun e => if e = '0' then 1 else 3 * 1).sum,
          y := 50,
          w := if "010010100".toList[i]? = some '0' then 1 else 3 * 1,
          h := 45,
          color := 0x0000 }) := by
  decide

/-- C12, where no `int` overflows: the sentinel character is ordinary content. For a text with a `*`
after the characters `before` (none of them the terminator), whenever no `int`
overflows, i.e. `x`, `(31 + 16 * k) * narrowWidth` for that text and their sum are
representable in 32 bits, `getBarcodeWidth` is `16 * narrowWidth` more than without
that `*`, and `drawBarcode` issues for it, right after the 5 calls of the start marker
and the 5 calls of each supported character of `before`, the five rectangles of the
start marker translated by `16 * narrowWidth * (1 + number of those characters)`.
For the text `*` the calls are three copies of the marker at `x`, `x + 16w`,
`x + 32w`, and the width is `47 * w`. -/
theorem sentinel_as_content (before after : List Char) (x y height narrowWidth : Int)
    (hbefore : NUL ∉ before) (hx : inRange x)
    (hW : inRange (idealWidth (before ++ '*' :: after) narrowWidth))
    (hxW : inRange (x + idealWidth (before ++ '*' :: after) narrowWidth)) :
    (∃ total, getBarcodeWidth (before ++ after) narrowWidth = some total ∧
      getBarcodeWidth (before ++ '*' :: after) narrowWidth = some (total + 16 * narrowWidth)) ∧
    (∃ frameRects preRects postRects,
      drawPattern sentinel x y height narrowWidth (wrap (narrowWidth * 3)) = some frameRects ∧
      frameRects.length = 5 ∧
      preRects.length =
        5 * (before.filter (fun ch => decide (toupper ch ∈ CHARS))).length ∧
      drawBarcode (before ++ '*' :: after) x y height narrowWidth =
        some (frameRects ++ preRects ++
          frameRects.map (shiftRect (16 * narrowWidth *
            (1 + ((before.filter (fun ch => decide (toupper ch ∈ CHARS))).length : Int)))) ++
          postRects)) ∧
    (∃ frameRects,
      drawPattern sentinel x y height narrowWidth (wrap (narrowWidth * 3)) = some frameRects ∧
      drawBarcode "*".toList x y height narrowWidth =
        some (frameRects ++ frameRects.map (shiftRect (16 * narrowWidth)) ++
          frameRects.map (shiftRect (32 * narrowWidth)))) ∧
    getBarcodeWidth "*".toList narrowWidth = some (47 * narrowWidth) := by
  have hs := widthOf_pattern narrowWidth (narrowWidth * 3) sentinel sentinel_mem
  have h9 : sentinel.length = 9 := by decide
  have hw3 : wrap (narrowWidth * 3) = narrowWidth * 3 :=
    wrap_of_inRange _ (three_inRange _ narrowWidth hW)
  -- the marker alone and the text `*` stay in range as well
  have hstar := idealWidth_star before after narrowWidth hbefore
  have hcount : supportedCount (before ++ '*' :: after) =
      (before.filter (fun ch => decide (toupper ch ∈ CHARS))).length +
        (supportedCount after + 1) := by
    rw [supportedCount_append before _ hbefore, supportedCount_star]
  have hkb : (0 : Int) ≤ ((before.filter (fun ch => decide (toupper ch ∈ CHARS))).length : Int) :=
    Int.ofNat_nonneg _
  have hka : (0 : Int) ≤ (supportedCount after : Int) := Int.ofNat_nonneg _
  have hone : idealWidth "*".toList narrowWidth = 47 * narrowWidth := by
    have h1 : supportedCount "*".toList = 1 := by decide
    rw [idealWidth, h1]
    norm_num
  have hexp : idealWidth (before ++ '*' :: after) narrowWidth = 47 * narrowWidth +
      16 * ((((before.filter (fun ch => decide (toupper ch ∈ CHARS))).length : Int) +
        (supportedCount after : Int)) * narrowWidth) := by
    rw [idealWidth, hcount]
    push_cast
    ring
  have hbetween : inRange (47 * narrowWidth) ∧ inRange (x + 47 * narrowWidth) ∧
      inRange (idealWidth (before ++ after) narrowWidth) := by
    obtain ⟨a1, a2⟩ := hW
    obtain ⟨b1, b2⟩ := hxW
    obtain ⟨c1, c2⟩ := hx
    rw [hstar] at a1 a2 b1 b2
    have hexp2 := hexp
    rw [hstar] at hexp2
    have hk := add_nonneg hkb hka
    rcases le_total 0 narrowWidth with hn | hn
    · have hm := mul_nonneg hk hn
      refine ⟨⟨?_, ?_⟩, ⟨?_, ?_⟩, ⟨?_, ?_⟩⟩ <;> omega
    · have hm := mul_nonpos_of_nonneg_of_nonpos hk hn
      refine ⟨⟨?_, ?_⟩, ⟨?_, ?_⟩, ⟨?_, ?_⟩⟩ <;> omega
  obtain ⟨h47, hx47, hW0⟩ := hbetween
  have hframe : drawPattern sentinel x y height narrowWidth (narrowWidth * 3) =
      some (barsOf y height narrowWidth (narrowWidth * 3) 0 sentinel x) := by
    apply drawPattern_ideal x y height narrowWidth (narrowWidth * 3) sentinel h9
    apply inRange_take narrowWidth (narrowWidth * 3) (sign_three narrowWidth) sentinel x hx
    apply inRange_initial narrowWidth (narrowWidth * 3) (sign_three narrowWidth) sentinel
      ('0' :: (encodeContent (before ++ '*' :: after) ++ sentinel)) x hx
    have := widthOf_encode (before ++ '*' :: after) narrowWidth
    rw [encode] at this
    rw [this]
    exact hxW
  refine ⟨?_, ?_, ?_, ?_⟩
  · refine ⟨_, getBarcodeWidth_formula _ _ hW0, ?_⟩
    rw [getBarcodeWidth_formula _ _ hW, hstar]
  · refine ⟨_, barsOf y height narrowWidth (narrowWidth * 3) 0 (encodeContent before)
        (x + (widthOf narrowWidth (narrowWidth * 3) sentinel + narrowWidth)),
      barsOf y height narrowWidth (narrowWidth * 3) 0 (encodeContent after ++ sentinel)
        (x + (widthOf narrowWidth (narrowWidth * 3) sentinel + narrowWidth) +
          widthOf narrowWidth (narrowWidth * 3) (encodeContent before) +
          (widthOf narrowWidth (narrowWidth * 3) sentinel + narrowWidth)),
      by rw [hw3]; exact hframe,
      barsOf_nine_length _ _ _ _ _ _ h9, ?_, ?_⟩
    · have := barsOf_encodeContent_length y height narrowWidth (narrowWidth * 3) before
        (x + (widthOf narrowWidth (narrowWidth * 3) sentinel + narrowWidth))
      rw [cstr_of_no_NUL before hbefore] at this
      exact this
    · rw [drawBarcode_ideal _ x y height narrowWidth hx hxW, encode,
        encodeContent_append _ _ hbefore, encodeContent_star,
        barsOf_symbol y height narrowWidth _ sentinel _ x h9, List.append_assoc,
        barsOf_append,
        barsOf_parity y height narrowWidth _ _ (0 + (encodeContent before).length) 0 _
          (by rw [Nat.zero_add]; exact encodeContent_length_even before),
        List.append_assoc sentinel, List.cons_append,
        barsOf_symbol y height narrowWidth _ sentinel _ _ h9]
      have hk := widthOf_encodeContent narrowWidth before
      have hsup : supported = (fun ch => decide (toupper ch ∈ CHARS)) := rfl
      rw [cstr_of_no_NUL before hbefore, hsup] at hk
      have hshift : x + (widthOf narrowWidth (narrowWidth * 3) sentinel + narrowWidth) +
          widthOf narrowWidth (narrowWidth * 3) (encodeContent before) =
          x + 16 * narrowWidth *
            (1 + ((before.filter (fun ch => decide (toupper ch ∈ CHARS))).length : Int)) := by
        rw [hk, hs]
        ring
      rw [← barsOf_shift, ← hshift]
      simp only [List.append_assoc]
  · refine ⟨_, by rw [hw3]; exact hframe, ?_⟩
    have he : encode "*".toList = sentinel ++ '0' :: (sentinel ++ '0' :: sentinel) := by decide
    rw [drawBarcode_ideal _ x y height narrowWidth hx (by rw [hone]; exact hx47), he,
      barsOf_symbol y height narrowWidth _ sentinel _ x h9,
      barsOf_symbol y height narrowWidth _ sentinel _ _ h9, hs, ← barsOf_shift, ← barsOf_shift]
    have e1 : x + (6 * narrowWidth + 3 * (narrowWidth * 3) + narrowWidth) = x + 16 * narrowWidth := by
      ring
    have e2 : x + (6 * narrowWidth + 3 * (narrowWidth * 3) + narrowWidth) +
        (6 * narrowWidth + 3 * (narrowWidth * 3) + narrowWidth) = x + 32 * narrowWidth := by
      ring
    rw [e2, e1, List.append_assoc]
  · rw [getBarcodeWidth_formula _ _ (by rw [hone]; exact h47), hone]

/-- C12 at the text `A*B` drawn at `(10, 50)`, narrow width 1: the `*` follows one
supported character. -/
theorem sentinel_as_content_witness :
    NUL ∉ "A".toList ∧ inRange 10 ∧
    inRange (idealWidth ("A".toList ++ '*' :: "B".toList) 1) ∧
    inRange (10 + idealWidth ("A".toList ++ '*' :: "B".toList) 1) ∧
    ∃ total, getBarcodeWidth ("A".toList ++ "B".toList) 1 = some total ∧
      getBarcodeWidth ("A".toList ++ '*' :: "B".toList) 1 = some (total + 16 * 1) :=
  ⟨by decide, by decide, by decide, by decide,
    (sentinel_as_content "A".toList "B".toList 10 50 45 1 (by decide) (by decide) (by decide)
      (by decide)).1⟩

/-- C12 fails where the total overflows: for the text `*` at narrow width
100000000 the function returns `405032704`, not `47 * 100000000`. -/
theorem sentinel_as_content_overflow :
    inRange 100000000 ∧
    getBarcodeWidth "*".toList 100000000 = some 405032704 ∧
    getBarcodeWidth "*".toList 100000000 ≠ some (47 * 100000000) := by
  decide

end Code39Generator
